import Mathlib

/-!
# Verification of the rAPI syntax-highlighting core

Shallow embedding of the theme-color resolution pipeline
(`src/themeColors.ts`) and of the two response-body tokenizers
(`src/webview/ResponseViewer.tsx`), with theorems settling the frozen
claims about them.

Strings are modelled as `List Char` (`Str`); JavaScript string methods
(`trim`, `startsWith`, `split`, regex scanning) are given explicit
character-level definitions mirroring the semantics the source relies on.
-/

set_option maxHeartbeats 1000000

abbrev Str := List Char

/-- JavaScript `\s` / `trim` whitespace (restricted to the ASCII whitespace
characters that actually occur in theme files and response bodies). -/
def isJsWs (c : Char) : Bool := c.isWhitespace

/-- `String.prototype.trim`: drop leading and trailing whitespace. -/
def jsTrim (s : Str) : Str :=
  ((s.dropWhile isJsWs).reverse.dropWhile isJsWs).reverse

/-- JavaScript `\w` word characters `[A-Za-z0-9_]`. -/
def isWordChar (c : Char) : Bool := c.isAlphanum || c == '_'

/-! ## Theme data model (`themeColors.ts`) -/

/-- The `settings` object of a `tokenColors` rule. -/
structure RuleSettings where
  foreground : Option Str
  deriving Repr, DecidableEq

/-- A single `tokenColors` rule (`ThemeTokenColorRule` in the source).
`scope` is duck-typed in the source: a string (`Sum.inl`), an array of
strings (`Sum.inr`), or absent/other (`none`). -/
structure ThemeTokenColorRule where
  scope : Option (Str ⊕ List Str)
  settings : Option RuleSettings
  deriving Repr, DecidableEq

/-- A parsed theme JSON document, as consumed by `resolveTokenColors`:
an optional `include` string and an optional `tokenColors` array
(`none` models an absent or non-array `tokenColors` field). -/
structure ThemeDoc where
  «include» : Option Str
  tokenColors : Option (List ThemeTokenColorRule)
  deriving Repr, DecidableEq

/-- The rules a single document contributes
(`if (Array.isArray(theme.tokenColors))`). -/
def ownRules (d : ThemeDoc) : List ThemeTokenColorRule :=
  d.tokenColors.getD []

/-- File-system collaborator: `readThemeFile` either yields a parsed
document or throws (modelled as `none`, caught by the `catch` clause). -/
abbrev ThemeEnv := Str → Option ThemeDoc

/-- `resolveTokenColors`, the recursive include-chain flattener.

The source recurses on `theme.«include»` with no visited set and no depth
bound; `fuel` makes that recursion total in the embedding:
`resolveTokenColors join env fuel uri = none` means the recursion did not
finish within `fuel` hops, and `= none` for every `fuel` means the real
(unbounded) recursion never terminates.  `join` models the collaborator
`vscode.Uri.joinPath(dirname(themeUri), theme.«include»)`.  A falsy
(absent or empty) `include` is not followed. -/
def resolveTokenColors (join : Str → Str → Str) (env : ThemeEnv) :
    Nat → Str → Option (List ThemeTokenColorRule)
  | 0, _ => none
  | fuel + 1, uri =>
    match env uri with
    | none => some []
    | some theme =>
      match theme.«include» with
      | some inc =>
        if inc = [] then some (ownRules theme)
        else
          match resolveTokenColors join env fuel (join uri inc) with
          | none => none
          | some base => some (base ++ ownRules theme)
      | none => some (ownRules theme)

/-- Big-step characterization of the same recursion, independent of fuel:
`Resolves join env uri rules` holds exactly when the source's unbounded
recursion, started at `uri`, terminates with `rules`. -/
inductive Resolves (join : Str → Str → Str) (env : ThemeEnv) :
    Str → List ThemeTokenColorRule → Prop
  | fail (uri : Str) : env uri = none → Resolves join env uri []
  | noInclude (uri : Str) (theme : ThemeDoc) :
      env uri = some theme → theme.«include» = none →
      Resolves join env uri (ownRules theme)
  | emptyInclude (uri : Str) (theme : ThemeDoc) :
      env uri = some theme → theme.«include» = some [] →
      Resolves join env uri (ownRules theme)
  | follow (uri : Str) (theme : ThemeDoc) (inc : Str)
      (base : List ThemeTokenColorRule) :
      env uri = some theme → theme.«include» = some inc → inc ≠ [] →
      Resolves join env (join uri inc) base →
      Resolves join env uri (base ++ ownRules theme)

/-! ## The specificity matcher (`findColor`) -/

/-- The foreground color of a rule, if it passes the truthiness guard
`if (!rule.settings?.foreground) continue` (absent settings, absent
foreground, and the empty string are all falsy). -/
def foregroundOf (r : ThemeTokenColorRule) : Option Str :=
  match r.settings with
  | some s =>
    match s.foreground with
    | some fg => if fg = [] then none else some fg
    | none => none
  | none => none

/-- Split a list at every occurrence of the character `c`
(JavaScript `split` on a comma; the `\s*` surrounding the comma in the
source's `/\s*,\s*/` is subsumed by the `trim` applied to every piece
before it is used). -/
def splitOnChar (c : Char) : Str → List Str
  | [] => [[]]
  | x :: xs =>
    if x = c then [] :: splitOnChar c xs
    else
      match splitOnChar c xs with
      | [] => [[x]]
      | y :: ys => (x :: y) :: ys

/-- The selector list of a rule: an array scope is used as-is, a string
scope is split on commas, anything else contributes nothing. -/
def ruleScopes (r : ThemeTokenColorRule) : List Str :=
  match r.scope with
  | some (Sum.inl s) => splitOnChar ',' s
  | some (Sum.inr l) => l
  | none => []

/-- First matching direction in `findColor`: the target equals the
trimmed rule selector or is its dot/space-delimited descendant. -/
def targetMatches (trimmed target : Str) : Bool :=
  target == trimmed
    || (trimmed ++ ['.']).isPrefixOf target
    || (trimmed ++ [' ']).isPrefixOf target

/-- Second matching direction: the rule selector is a dot/space-delimited
descendant of the target, or equals it. -/
def ruleMatches (trimmed target : Str) : Bool :=
  (target ++ ['.']).isPrefixOf trimmed
    || (target ++ [' ']).isPrefixOf trimmed
    || trimmed == target

/-- The strict-improvement update of `findColor`'s accumulator
(`bestSpecificity`, `bestColor`): a strictly longer selector replaces
the current best, an equally long one does not. -/
def strictUpd (len : Int) (fg : Str) (st : Int × Option Str) :
    Int × Option Str :=
  if len > st.1 then (len, some fg) else st

/-- One iteration of the innermost loop of `findColor`
(`for (const target of targetScopes)`): two guarded updates, one per
matching direction. -/
def stepTarget (trimmed : Str) (fg : Str) (st : Int × Option Str)
    (target : Str) : Int × Option Str :=
  let st1 := if targetMatches trimmed target then
      strictUpd (trimmed.length : Int) fg st
    else st
  if ruleMatches trimmed target then
    strictUpd (trimmed.length : Int) fg st1
  else st1

/-- The loop body of `findColor` for one rule: skip rules with a falsy
foreground, otherwise fold the trimmed selectors against all targets. -/
def stepRule (targetScopes : List Str) (st : Int × Option Str)
    (r : ThemeTokenColorRule) : Int × Option Str :=
  match foregroundOf r with
  | none => st
  | some fg =>
    (ruleScopes r).foldl
      (fun st sc => targetScopes.foldl (stepTarget (jsTrim sc) fg) st) st

/-- `findColor`: best foreground over all rules, starting from
`bestSpecificity = -1`, `bestColor = undefined`. -/
def findColor (targetScopes : List Str)
    (rules : List ThemeTokenColorRule) : Option Str :=
  (rules.foldl (stepRule targetScopes) (-1, none)).2

/-! ## Color map builder (`getThemeTokenColors`) -/

/-- The ten semantic slots (`SyntaxTokenColors`). -/
structure SyntaxTokenColors where
  key : Str
  string : Str
  number : Str
  bool : Str
  nullVal : Str
  tag : Str
  attrName : Str
  attrValue : Str
  comment : Str
  punctuation : Str
  deriving Repr, DecidableEq

/-- Names of the ten slots, for `SCOPE_MAP`. -/
inductive TokenKey where
  | key | string | number | bool | nullVal | tag
  | attrName | attrValue | comment | punctuation
  deriving Repr, DecidableEq

/-- `result[mapping.token] = color`. -/
def setToken (m : SyntaxTokenColors) : TokenKey → Str → SyntaxTokenColors
  | TokenKey.key, v => { m with key := v }
  | TokenKey.string, v => { m with string := v }
  | TokenKey.number, v => { m with number := v }
  | TokenKey.bool, v => { m with bool := v }
  | TokenKey.nullVal, v => { m with nullVal := v }
  | TokenKey.tag, v => { m with tag := v }
  | TokenKey.attrName, v => { m with attrName := v }
  | TokenKey.attrValue, v => { m with attrValue := v }
  | TokenKey.comment, v => { m with comment := v }
  | TokenKey.punctuation, v => { m with punctuation := v }

def DARK_DEFAULTS : SyntaxTokenColors where
  key := "#9cdcfe".toList
  string := "#ce9178".toList
  number := "#b5cea8".toList
  bool := "#569cd6".toList
  nullVal := "#569cd6".toList
  tag := "#569cd6".toList
  attrName := "#9cdcfe".toList
  attrValue := "#ce9178".toList
  comment := "#6a9955".toList
  punctuation := "#d4d4d4".toList

def LIGHT_DEFAULTS : SyntaxTokenColors where
  key := "#0451a5".toList
  string := "#a31515".toList
  number := "#098658".toList
  bool := "#0000ff".toList
  nullVal := "#0000ff".toList
  tag := "#800000".toList
  attrName := "#ff0000".toList
  attrValue := "#0000ff".toList
  comment := "#008000".toList
  punctuation := "#000000".toList

/-- `SCOPE_MAP`: candidate scopes per semantic slot, in source order. -/
def SCOPE_MAP : List (List Str × TokenKey) :=
  [ (["support.type.property-name".toList,
      "meta.object-literal.key".toList,
      "string.json support.type.property-name".toList], TokenKey.key),
    (["string.quoted".toList, "string".toList], TokenKey.string),
    (["constant.numeric".toList, "constant.numeric.json".toList],
      TokenKey.number),
    (["constant.language.boolean".toList, "constant.language.json".toList,
      "constant.language".toList], TokenKey.bool),
    (["constant.language.null".toList,
      "constant.language.undefined".toList], TokenKey.nullVal),
    (["entity.name.tag".toList, "entity.name.tag.html".toList],
      TokenKey.tag),
    (["entity.other.attribute-name".toList,
      "entity.other.attribute-name.html".toList], TokenKey.attrName),
    (["string.quoted.double.html".toList, "meta.attribute string".toList],
      TokenKey.attrValue),
    (["comment".toList, "comment.block".toList, "comment.line".toList],
      TokenKey.comment),
    (["punctuation".toList, "meta.brace".toList,
      "punctuation.definition".toList], TokenKey.punctuation) ]

/-- `getThemeTokenColors`.  The host-introspection that finds which
extension contributes the active theme is abstracted as the collaborator
`locate : themeName → Option uri` (the spec's `ThemeLocator`); `themeName`
models `workbench.colorTheme` (`none` or the empty string are falsy and
fall back to the defaults).  The result is `none` only when the include
recursion exhausts `fuel` (the real code would not return at all). -/
def getThemeTokenColors (isLight : Bool) (themeName : Option Str)
    (locate : Str → Option Str) (join : Str → Str → Str) (env : ThemeEnv)
    (fuel : Nat) : Option SyntaxTokenColors :=
  let defaults := if isLight then LIGHT_DEFAULTS else DARK_DEFAULTS
  match themeName with
  | none => some defaults
  | some nm =>
    if nm = [] then some defaults
    else
      match locate nm with
      | none => some defaults
      | some uri =>
        match resolveTokenColors join env fuel uri with
        | none => none
        | some rules =>
          if rules.length = 0 then some defaults
          else
            some (SCOPE_MAP.foldl
              (fun acc m =>
                match findColor m.1 rules with
                | some c => setToken acc m.2 c
                | none => acc)
              defaults)

/-! ## Tokens (`ResponseViewer.tsx`)

The two tokenizers are `RegExp.exec` loops.  They are embedded as
character-level scanners: at each position the regex's alternatives are
tried in source order; on the patterns the source uses (no alternative
matches the empty string, and every backtracking choice point is
deterministic, as argued at each matcher below) this agrees with
JavaScript regex semantics.  The `fuel` argument makes the scan loops
total; every match consumes at least one character, so
`input.length + 1` fuel is always enough. -/

structure Token where
  type : String
  value : Str
  deriving Repr, DecidableEq

/-- Concatenation of the `value` fields, in emission order. -/
def tokensText (ts : List Token) : Str := (ts.map Token.value).flatten

/-- Flush a pending between-match gap (accumulated in reverse) as a
single `ws` token, as the `match.index > lastIndex` logic does. -/
def flushGap (gapRev : Str) (ts : List Token) : List Token :=
  if gapRev = [] then ts else ⟨"ws", gapRev.reverse⟩ :: ts

/-! ### JSON tokenizer (`tokenizeJson`) -/

/-- `(?:[^"\\]|\\.)*`, the body of a quoted string: greedily take plain
characters and backslash escape pairs.  Deterministic: at every position
exactly one continuation is possible, so no backtracking arises. -/
def quotedUnits : Str → Str × Str
  | [] => ([], [])
  | c :: rest =>
    if c = '"' then ([], c :: rest)
    else if c = '\\' then
      match rest with
      | [] => ([], c :: rest)
      | c2 :: rest2 =>
        let (u, r) := quotedUnits rest2
        (c :: c2 :: u, r)
    else
      let (u, r) := quotedUnits rest
      (c :: u, r)

/-- `"(?:[^"\\]|\\.)*"`: a complete quoted string, quotes included. -/
def matchQuoted : Str → Option (Str × Str)
  | [] => none
  | c :: rest =>
    if c = '"' then
      match quotedUnits rest with
      | (u, c2 :: r2) => if c2 = '"' then some (c :: u ++ [c2], r2) else none
      | (_, []) => none
    else none

/-- `(?:\.\d+)?`: the optional fractional part, failing as a whole (and
consuming nothing) when the dot is not followed by a digit, exactly as
the regex's local backtracking does. -/
def optFrac (l : Str) : Str × Str :=
  match l with
  | c :: r =>
    if c = '.' then
      let (fd, r2) := r.span Char.isDigit
      if fd = [] then ([], l) else (c :: fd, r2)
    else ([], l)
  | [] => ([], l)

/-- `(?:[eE][+-]?\d+)?`: the optional exponent part, failing as a whole
when its required digits are missing. -/
def optExp (l : Str) : Str × Str :=
  match l with
  | e :: r =>
    if e = 'e' || e = 'E' then
      let (sg, r1) :=
        match r with
        | s :: r2 => if s = '+' || s = '-' then ([s], r2) else ([], r)
        | [] => ([], r)
      let (ed, r3) := r1.span Char.isDigit
      if ed = [] then ([], l) else (e :: (sg ++ ed), r3)
    else ([], l)
  | [] => ([], l)

/-- `-?\d+(?:\.\d+)?(?:[eE][+-]?\d+)?`: a JSON number. -/
def matchNumber (l : Str) : Option (Str × Str) :=
  let (sign, l1) :=
    match l with
    | c :: r => if c = '-' then ([c], r) else ([], l)
    | [] => ([], l)
  let (ds, l2) := l1.span Char.isDigit
  if ds = [] then none
  else
    let (frac, l3) := optFrac l2
    let (ex, l4) := optExp l3
    some (sign ++ ds ++ frac ++ ex, l4)

/-- `\bkw\b`: the keyword `kw` with word boundaries on both sides;
`prev` is the character before the current scan position. -/
def matchKeywordTok (kw : Str) (prev : Option Char) (l : Str) :
    Option (Str × Str) :=
  let prevIsWord :=
    match prev with
    | some p => isWordChar p
    | none => false
  if prevIsWord then none
  else if kw.isPrefixOf l then
    match l.drop kw.length with
    | c :: rest => if isWordChar c then none else some (kw, c :: rest)
    | [] => some (kw, [])
  else none

/-- `("(?:[^"\\]|\\.)*")\s*:`: an object key — a quoted string, optional
whitespace, and a colon.  Returns the string part (`match[1]`) and the
remainder of the full match (`full.slice(match[1].length)`) separately,
as the source emits them as two tokens. -/
def matchKey (l : Str) : Option (Str × Str × Str) :=
  match matchQuoted l with
  | some (q, r) =>
    let (w, r2) := r.span isJsWs
    match r2 with
    | c :: r3 => if c = ':' then some (q, w ++ [c], r3) else none
    | [] => none
  | none => none

/-- `[{}\[\],:]`. -/
def jsonPunct (c : Char) : Bool :=
  c = '{' || c = '}' || c = '[' || c = ']' || c = ',' || c = ':'

/-- All the alternatives of the JSON token regex, in source order,
tried at one scan position; emits the token(s) for the match and
returns the unconsumed remainder. -/
def matchJsonAt (prev : Option Char) (l : Str) : Option (List Token × Str) :=
  match matchKey l with
  | some (q, pc, rest) => some ([⟨"key", q⟩, ⟨"punct", pc⟩], rest)
  | none =>
  match matchQuoted l with
  | some (q, rest) => some ([⟨"string", q⟩], rest)
  | none =>
  match matchNumber l with
  | some (n, rest) => some ([⟨"number", n⟩], rest)
  | none =>
  match matchKeywordTok "true".toList prev l with
  | some (k, rest) => some ([⟨"bool", k⟩], rest)
  | none =>
  match matchKeywordTok "false".toList prev l with
  | some (k, rest) => some ([⟨"bool", k⟩], rest)
  | none =>
  match matchKeywordTok "null".toList prev l with
  | some (k, rest) => some ([⟨"null", k⟩], rest)
  | none =>
  match l with
  | c :: rest => if jsonPunct c then some ([⟨"punct", [c]⟩], rest) else none
  | [] => none

/-- The character preceding the next scan position after consuming
`consumed` (for the keyword word-boundary checks). -/
def lastPrev (consumed : Str) (prev : Option Char) : Option Char :=
  match consumed.reverse with
  | c :: _ => some c
  | [] => prev

/-- The `while ((match = re.exec(json)))` loop of `tokenizeJson`:
text between matches accumulates in `gapRev` and is flushed as a single
`ws` token, and the trailing remainder is flushed at the end. -/
def jsonScan : Nat → Option Char → Str → Str → List Token
  | 0, _, gapRev, _ => flushGap gapRev []
  | _ + 1, _, gapRev, [] => flushGap gapRev []
  | fuel + 1, prev, gapRev, c :: rest =>
    match matchJsonAt prev (c :: rest) with
    | some (toks, r) =>
      flushGap gapRev
        (toks ++ jsonScan fuel (lastPrev (tokensText toks) prev) [] r)
    | none => jsonScan fuel (some c) (c :: gapRev) rest

def tokenizeJson (s : Str) : List Token := jsonScan (s.length + 1) none [] s

/-! ### HTML tokenizer (`tokenizeHtml`) -/

/-- The lazy tail `[\s\S]*?-->` of the comment alternative: scan to the
first occurrence of `-->` and consume through it. -/
def commentBody : Str → Option (Str × Str)
  | [] => none
  | c :: rest =>
    if ['-', '-', '>'].isPrefixOf (c :: rest) then
      some (['-', '-', '>'], rest.drop 2)
    else
      match commentBody rest with
      | some (b, r) => some (c :: b, r)
      | none => none

/-- `<!--[\s\S]*?-->`. -/
def matchComment (l : Str) : Option (Str × Str) :=
  if "<!--".toList.isPrefixOf l then
    match commentBody (l.drop 4) with
    | some (b, r) => some ("<!--".toList ++ b, r)
    | none => none
  else none

/-- Case-insensitive equality of two character lists (the regex has the
`i` flag). -/
def ciEqList : Str → Str → Bool
  | [], [] => true
  | a :: as, b :: bs => (a.toLower == b.toLower) && ciEqList as bs
  | _, _ => false

/-- `<!DOCTYPE[^>]*>`, case-insensitively. -/
def matchDoctype (l : Str) : Option (Str × Str) :=
  let pat := "<!DOCTYPE".toList
  if ciEqList pat (l.take pat.length) then
    let (body, r2) := (l.drop pat.length).span (fun c => !(c == '>'))
    match r2 with
    | c :: r3 =>
      if c = '>' then some (l.take pat.length ++ (body ++ [c]), r3) else none
    | [] => none
  else none

/-- The optional `/` after `<` (`<\/?`), shared by the top-level tag
span match (`<\/?[a-zA-Z][^>]*\/?>`, a whole tag span from `<` through
the first following `>` — the `[^>]*` cannot cross a `>`, so whether the
optional `/` is absorbed by `[^>]*` or by `\/?` the span is the same)
and by the decomposition regex. -/
def tagSlash (rest : Str) : Str × Str :=
  match rest with
  | s :: r => if s = '/' then ([s], r) else ([], rest)
  | [] => ([], rest)

def matchTagSpan (l : Str) : Option (Str × Str) :=
  match l with
  | lt :: rest =>
    if lt = '<' then
      let (slash, r1) := tagSlash rest
      match r1 with
      | c :: r2 =>
        if c.isAlpha then
          let (body, r3) := r2.span (fun x => !(x == '>'))
          match r3 with
          | gt :: r4 =>
            if gt = '>' then
              some (lt :: (slash ++ c :: (body ++ [gt])), r4)
            else none
          | [] => none
        else none
      | [] => none
    else none
  | [] => none

/-- `[^<]+`. -/
def matchText (l : Str) : Option (Str × Str) :=
  let (t, r) := l.span (fun c => !(c == '<'))
  if t = [] then none else some (t, r)

/-- `[\w-]`: tag-name and bare attribute-value characters. -/
def isTagNameChar (c : Char) : Bool := isWordChar c || c == '-'

/-- `[\w-:]`: attribute-name characters. -/
def isAttrNameChar (c : Char) : Bool := isWordChar c || c == '-' || c == ':'

/-- The trailing group `(\s*\/?>)` of the tag decomposition regex,
matched at the current position (`\s*` is greedy; no shorter whitespace
run can succeed where the maximal one fails, since only `/` or `>` may
follow it). -/
def matchCloseMark (l : Str) : Option (Str × Str) :=
  let (w, r1) := l.span isJsWs
  match r1 with
  | c :: r2 =>
    if c = '>' then some (w ++ [c], r2)
    else
      if c = '/' then
        match r2 with
        | c2 :: r3 => if c2 = '>' then some (w ++ [c, c2], r3) else none
        | [] => none
      else none
  | [] => none

/-- The lazy middle `[\s\S]*?` before `(\s*\/?>)`: grow the middle one
character at a time until the close mark matches.  Returns
(middle, close mark, remainder). -/
def findCloseMark : Str → Option (Str × Str × Str)
  | [] => none
  | c :: rest =>
    match matchCloseMark (c :: rest) with
    | some (cm, r) => some ([], cm, r)
    | none =>
      match findCloseMark rest with
      | some (m, cm, r) => some (c :: m, cm, r)
      | none => none

/-- Split what follows the tag name into groups 3 and 4 of
`/(<\/?)([\w-]+)((?:\s+[\s\S]*?)?)(\s*\/?>)/`: the optional group 3 is
greedily preferred, so if the remainder starts with whitespace, `\s+`
takes the maximal run and the lazy middle grows until the close mark
matches (which succeeds whenever a `>` remains); otherwise group 3 is
empty and the close mark must match immediately. -/
def splitTagRest (rest2 : Str) : Option (Str × Str × Str) :=
  match rest2 with
  | c :: _ =>
    if isJsWs c then
      let (w, r1) := rest2.span isJsWs
      match findCloseMark r1 with
      | some (m, cm, tail) => some (w ++ m, cm, tail)
      | none => none
    else
      match matchCloseMark rest2 with
      | some (cm, tail) => some ([], cm, tail)
      | none => none
  | [] => none

/-- The tag decomposition regex, anchored at the current position:
open marker `<` or `</`, tag name `[\w-]+`, then groups 3 and 4. -/
def decomposeTagAt (l : Str) : Option (Str × Str × Str × Str × Str) :=
  match l with
  | lt :: rest =>
    if lt = '<' then
      let (slash, r1) := tagSlash rest
      let (nm, r2) := r1.span isTagNameChar
      if nm = [] then none
      else
        match splitTagRest r2 with
        | some (m3, m4, tail) => some (lt :: slash, nm, m3, m4, tail)
        | none => none
    else none
  | [] => none

/-- `tagRe.exec(full)`: the leftmost position at which the tag
decomposition matches (characters before it are not covered by any
group and are dropped by the source's token emission). -/
def findTagMatch : Str → Option (Str × Str × Str × Str × Str)
  | [] => none
  | c :: rest =>
    match decomposeTagAt (c :: rest) with
    | some r => some r
    | none => findTagMatch rest

/-- `["'][^"']*["']|[\w-]+`: a quoted (either quote may close) or bare
attribute value. -/
def matchAttrValue (l : Str) : Option (Str × Str) :=
  match l with
  | q :: rest =>
    if q = '"' || q = '\'' then
      let (body, r1) := rest.span (fun c => !(c == '"' || c == '\''))
      match r1 with
      | q2 :: r2 =>
        if q2 = '"' || q2 = '\'' then some (q :: (body ++ [q2]), r2)
        else none
      | [] => none
    else
      let (bare, r1) := l.span isTagNameChar
      if bare = [] then none else some (bare, r1)
  | [] => none

/-- One position of the attribute sub-regex
`/([\w-:]+)(\s*=\s*)(["'][^"']*["']|[\w-]+)|(\s+)/`: a name`=`value
triple (no backtracking helps a shorter name, since the character after
any shorter name run is still a name character, not `=` or whitespace)
or a whitespace run. -/
def matchAttrAt (l : Str) : Option (List Token × Str) :=
  let b1 : Option (List Token × Str) :=
    let (nm, r1) := l.span isAttrNameChar
    if nm = [] then none
    else
      let (w1, r2) := r1.span isJsWs
      match r2 with
      | eq :: r3 =>
        if eq = '=' then
          let (w2, r4) := r3.span isJsWs
          match matchAttrValue r4 with
          | some (v, r5) =>
            some ([⟨"attr-name", nm⟩, ⟨"punct", w1 ++ eq :: w2⟩,
                   ⟨"attr-value", v⟩], r5)
          | none => none
        else none
      | [] => none
  match b1 with
  | some x => some x
  | none =>
    let (w, r) := l.span isJsWs
    if w = [] then none else some ([⟨"ws", w⟩], r)

/-- The attribute sub-tokenizer loop over `tm[3]`, with the same
between-match and trailing gap logic as the JSON scan. -/
def attrScan : Nat → Str → Str → List Token
  | 0, gapRev, _ => flushGap gapRev []
  | _ + 1, gapRev, [] => flushGap gapRev []
  | fuel + 1, gapRev, c :: rest =>
    match matchAttrAt (c :: rest) with
    | some (toks, r) => flushGap gapRev (toks ++ attrScan fuel [] r)
    | none => attrScan fuel (c :: gapRev) rest

def attrTokens (s : Str) : List Token := attrScan (s.length + 1) [] s

/-- Token emission for one matched tag span: the decomposed markers,
name and attribute tokens when `tagRe` matches, otherwise the whole
span as a single `tag` token.  (An empty group 3 is falsy in the
source; `attrTokens []` is `[]`, so no separate check is needed.) -/
def tagTokens (full : Str) : List Token :=
  match findTagMatch full with
  | some (m1, m2, m3, m4, _) =>
    [⟨"tag", m1⟩, ⟨"tag", m2⟩] ++ attrTokens m3 ++ [⟨"tag", m4⟩]
  | none => [⟨"tag", full⟩]

/-- The top-level HTML alternatives, in source order. -/
def matchHtmlAt (l : Str) : Option (List Token × Str) :=
  match matchComment l with
  | some (full, r) => some ([⟨"comment", full⟩], r)
  | none =>
  match matchDoctype l with
  | some (full, r) => some ([⟨"doctype", full⟩], r)
  | none =>
  match matchTagSpan l with
  | some (full, r) => some (tagTokens full, r)
  | none =>
  match matchText l with
  | some (t, r) => some ([⟨"ws", t⟩], r)
  | none => none

/-- The `while ((match = re.exec(html)))` loop of `tokenizeHtml`.
Unlike the JSON scan there is NO gap logic: a character at which no
alternative matches is skipped and never emitted. -/
def htmlScan : Nat → Str → List Token
  | 0, _ => []
  | _ + 1, [] => []
  | fuel + 1, c :: rest =>
    match matchHtmlAt (c :: rest) with
    | some (toks, r) => toks ++ htmlScan fuel r
    | none => htmlScan fuel rest

def tokenizeHtml (s : Str) : List Token := htmlScan (s.length + 1) s

/-! ## Specification-side definitions

These definitions follow the spec's words (longest matching selector
wins, first rule in list order on ties) and are compared with the
source-derived `findColor` by the theorems below. -/

/-- A trimmed rule selector matches the slot when either matching
direction succeeds against some candidate scope. -/
def anyTargetMatch (targetScopes : List Str) (trimmed : Str) : Bool :=
  targetScopes.any fun tg => targetMatches trimmed tg || ruleMatches trimmed tg

/-- The (selector length, foreground) pairs a single rule contributes:
nothing for a falsy foreground, otherwise one pair per trimmed selector
that matches some candidate scope. -/
def scopePairs (targetScopes : List Str) (r : ThemeTokenColorRule) :
    List (Nat × Str) :=
  match foregroundOf r with
  | none => []
  | some fg =>
    (ruleScopes r).filterMap fun sc =>
      if anyTargetMatch targetScopes (jsTrim sc) then
        some ((jsTrim sc).length, fg)
      else none

/-- All matching (selector length, foreground) pairs of the rule list,
in rule order (and selector order within a rule). -/
def matchPairs (targetScopes : List Str)
    (rules : List ThemeTokenColorRule) : List (Nat × Str) :=
  rules.flatMap (scopePairs targetScopes)

/-- `findColor`'s accumulator update, phrased on one matching pair. -/
def pairStep (st : Int × Option Str) (p : Nat × Str) : Int × Option Str :=
  strictUpd (p.1 : Int) p.2 st

/-- The greatest matching selector length (`-1` when nothing matches). -/
def maxLenInt (ps : List (Nat × Str)) : Int :=
  ps.foldl (fun a p => max a (p.1 : Int)) (-1)

/-- The spec's matcher: among all matching pairs, the foreground of the
first (in rule order) whose selector length is maximal; no color when
nothing matches. -/
def findColorSpec (targetScopes : List Str)
    (rules : List ThemeTokenColorRule) : Option Str :=
  let ps := matchPairs targetScopes rules
  match ps.find? (fun p => (p.1 : Int) == maxLenInt ps) with
  | some p => some p.2
  | none => none

/-! ## A concrete cyclic include chain (for the cycle-termination claim)

One theme file `A` whose `include` resolves back to `A` itself. -/

/-- `Uri.joinPath` collaborator for the cyclic example: the include
string is itself the next uri. -/
def cycJoin : Str → Str → Str := fun _ inc => inc

/-- The self-including document: `include` points back to `A` itself,
and one (never produced) rule is present. -/
def cycDoc : ThemeDoc :=
  ⟨some "A".toList,
    some [⟨some (Sum.inl "comment".toList),
      some ⟨some "#123456".toList⟩⟩]⟩

/-- A file system with the single theme document `A`. -/
def cycEnv : ThemeEnv := fun u =>
  if u = "A".toList then some cycDoc else none

/-! ## Concrete environments used to instantiate the chain theorems -/

def wJoin : Str → Str → Str := fun _ inc => inc

def wRule1 : ThemeTokenColorRule :=
  ⟨some (Sum.inl "comment".toList), some ⟨some "#111".toList⟩⟩

def wRule2 : ThemeTokenColorRule :=
  ⟨some (Sum.inl "string".toList), some ⟨some "#222".toList⟩⟩

/-- `child` includes `base`; both exist. -/
def wEnv : ThemeEnv := fun u =>
  if u = "child".toList then some ⟨some "base".toList, some [wRule1]⟩
  else if u = "base".toList then some ⟨none, some [wRule2]⟩
  else none

/-- `child` includes `missing`, which cannot be read. -/
def wEnvMissing : ThemeEnv := fun u =>
  if u = "child".toList then some ⟨some "missing".toList, some [wRule1]⟩
  else none

/-- A linear include chain from `uri` down to `bad`, recording the
`ownRules` contribution of every document traversed, base-first
(deepest document's rules first, `uri`'s own rules last). -/
inductive IncludeChain (join : Str → Str → Str) (env : ThemeEnv) :
    Str → List (List ThemeTokenColorRule) → Str → Prop
  | refl (uri : Str) : IncludeChain join env uri [] uri
  | step (uri : Str) (theme : ThemeDoc) (inc : Str)
      (rss : List (List ThemeTokenColorRule)) (bad : Str) :
      env uri = some theme → theme.«include» = some inc → inc ≠ [] →
      IncludeChain join env (join uri inc) rss bad →
      IncludeChain join env uri (rss ++ [ownRules theme]) bad

/-! ## Well-formed HTML inputs (for the amended round-trip claim) -/

/-- The first occurrence of `-->` in `body ++ "-->"` is the final
terminator (so the lazy comment match ends exactly there). -/
def noEarlyTerm (body : Str) : Bool :=
  (List.range body.length).all fun i =>
    !(['-', '-', '>'].isPrefixOf ((body ++ ['-', '-', '>']).drop i))

/-- Inputs on which the HTML scan skips no character: concatenations of
comment spans, doctype spans, tag spans whose interior contains no `<`
or `>`, and nonempty `<`-free text runs (each followed by `<` or the
end, so that the `[^<]+` match ends at the run). -/
inductive HtmlChunks : Str → Prop
  | nil : HtmlChunks []
  | comment (body rest : Str) :
      noEarlyTerm body = true → HtmlChunks rest →
      HtmlChunks ("<!--".toList ++ body ++ "-->".toList ++ rest)
  | doctype (d9 body rest : Str) :
      ciEqList "<!DOCTYPE".toList d9 = true → '>' ∉ body → HtmlChunks rest →
      HtmlChunks (d9 ++ body ++ '>' :: rest)
  | tag (slash : Str) (c : Char) (body rest : Str) :
      (slash = [] ∨ slash = ['/']) → c.isAlpha = true →
      '<' ∉ body → '>' ∉ body → HtmlChunks rest →
      HtmlChunks ('<' :: slash ++ c :: body ++ '>' :: rest)
  | text (t rest : Str) :
      t ≠ [] → '<' ∉ t → (rest = [] ∨ ∃ r, rest = '<' :: r) →
      HtmlChunks rest → HtmlChunks (t ++ rest)

/-! # Theorems -/

/-! ## `findColor` characterization -/

theorem strictUpd_strictUpd (n : Int) (fg : Str) (st : Int × Option Str) :
    strictUpd n fg (strictUpd n fg st) = strictUpd n fg st := by
  unfold strictUpd
  split
  · simp
  · simp [*]

/-- The two sequential guarded updates of the inner loop collapse to a
single guarded update under the disjunction of the two directions. -/
theorem stepTarget_eq (t : Str) (fg : Str) (st : Int × Option Str)
    (tg : Str) :
    stepTarget t fg st tg =
      if targetMatches t tg || ruleMatches t tg then
        strictUpd (t.length : Int) fg st
      else st := by
  unfold stepTarget
  cases h1 : targetMatches t tg <;> cases h2 : ruleMatches t tg <;>
    simp [strictUpd_strictUpd]

theorem foldl_stepTarget (targets : List Str) (t : Str) (fg : Str)
    (st : Int × Option Str) :
    targets.foldl (stepTarget t fg) st =
      if anyTargetMatch targets t then strictUpd (t.length : Int) fg st
      else st := by
  induction targets generalizing st with
  | nil => simp [anyTargetMatch]
  | cons tg rest ih =>
    rw [List.foldl_cons, stepTarget_eq]
    cases h : (targetMatches t tg || ruleMatches t tg) with
    | true =>
      have hany : anyTargetMatch (tg :: rest) t = true := by
        simp [anyTargetMatch, h]
      rw [hany, if_pos rfl, ih]
      split
      · exact strictUpd_strictUpd _ _ _
      · rfl
    | false =>
      have hany : anyTargetMatch (tg :: rest) t = anyTargetMatch rest t := by
        simp [anyTargetMatch, h]
      rw [if_neg (by simp), ih, hany]

theorem stepRule_eq (targets : List Str) (st : Int × Option Str)
    (r : ThemeTokenColorRule) :
    stepRule targets st r = (scopePairs targets r).foldl pairStep st := by
  cases hf : foregroundOf r with
  | none => simp [stepRule, scopePairs, hf]
  | some fg =>
    simp only [stepRule, scopePairs, hf]
    generalize ruleScopes r = scs
    induction scs generalizing st with
    | nil => rfl
    | cons sc scs ih =>
      rw [List.foldl_cons, List.filterMap_cons, foldl_stepTarget]
      by_cases h : anyTargetMatch targets (jsTrim sc) = true
      · rw [if_pos h, if_pos h, List.foldl_cons]
        exact ih _
      · rw [if_neg h, if_neg h]
        exact ih _

theorem foldl_stepRule (rules : List ThemeTokenColorRule)
    (targets : List Str) (st : Int × Option Str) :
    rules.foldl (stepRule targets) st =
      (matchPairs targets rules).foldl pairStep st := by
  induction rules generalizing st with
  | nil => rfl
  | cons r rs ih =>
    rw [List.foldl_cons, stepRule_eq, ih]
    unfold matchPairs
    rw [List.flatMap_cons, List.foldl_append]

theorem foldl_max_ge (ps : List (Nat × Str)) (b : Int) :
    b ≤ ps.foldl (fun a p => max a (p.1 : Int)) b := by
  induction ps generalizing b with
  | nil => simp
  | cons p t ih => exact le_trans (le_max_left _ _) (ih (max b (p.1 : Int)))

/-- Joint characterization of the strict-improvement fold: its first
component is the running maximum, and its second component is the
color of the first pair attaining that maximum (or the initial color
when nothing beats the initial bound). -/
theorem foldl_pairStep_char (ps : List (Nat × Str)) (b : Int)
    (c : Option Str) :
    (ps.foldl pairStep (b, c)).1 =
        ps.foldl (fun a p => max a (p.1 : Int)) b
      ∧ (ps.foldl (fun a p => max a (p.1 : Int)) b > b →
          ∃ q, ps.find?
              (fun p => (p.1 : Int) ==
                ps.foldl (fun a p => max a (p.1 : Int)) b) = some q
            ∧ (ps.foldl pairStep (b, c)).2 = some q.2)
      ∧ (ps.foldl (fun a p => max a (p.1 : Int)) b ≤ b →
          (ps.foldl pairStep (b, c)).2 = c) := by
  induction ps generalizing b c with
  | nil =>
    refine ⟨rfl, fun h => absurd h (by simp), fun _ => rfl⟩
  | cons p t ih =>
    have hM : ∀ b', t.foldl (fun a p => max a (p.1 : Int)) b' =
        List.foldl (fun a p => max a (p.1 : Int)) b' t := fun _ => rfl
    by_cases hb : (p.1 : Int) > b
    · -- the head strictly improves: the accumulator becomes (p.1, p.2)
      have hstep : pairStep (b, c) p = ((p.1 : Int), some p.2) := by
        simp [pairStep, strictUpd, hb]
      have hmax : max b (p.1 : Int) = (p.1 : Int) := max_eq_right (le_of_lt hb)
      obtain ⟨ih1, ih2, ih3⟩ := ih (p.1 : Int) (some p.2)
      have hge := foldl_max_ge t (p.1 : Int)
      constructor
      · rw [List.foldl_cons, hstep, ih1, List.foldl_cons, hmax]
      constructor
      · intro _
        rcases lt_or_eq_of_le hge with hgt | heq
        · -- the maximum lies in the tail: the head is not it
          have hne : ((p.1 : Int) ==
              List.foldl (fun a p => max a (p.1 : Int)) b (p :: t)) = false := by
            rw [List.foldl_cons, hmax]
            simp only [beq_eq_false_iff_ne, ne_eq]
            exact ne_of_lt hgt
          obtain ⟨q, hq1, hq2⟩ := ih2 hgt
          refine ⟨q, ?_, ?_⟩
          · rw [List.find?_cons, hne]
            rw [List.foldl_cons, hmax] at *
            exact hq1
          · rw [List.foldl_cons, hstep]
            exact hq2
        · -- the head attains the maximum and is found first
          have hq : ((p.1 : Int) ==
              List.foldl (fun a p => max a (p.1 : Int)) b (p :: t)) = true := by
            rw [List.foldl_cons, hmax, ← heq]
            simp
          refine ⟨p, ?_, ?_⟩
          · rw [List.find?_cons, hq]
          · rw [List.foldl_cons, hstep]
            exact ih3 (le_of_eq heq.symm)
      · intro hle
        exfalso
        rw [List.foldl_cons, hmax] at hle
        exact absurd (le_trans hge hle) (not_le_of_lt hb)
    · -- the head does not improve: the accumulator is unchanged
      have hple : (p.1 : Int) ≤ b := not_lt.mp hb
      have hstep : pairStep (b, c) p = (b, c) := by
        simp [pairStep, strictUpd, hb]
      have hmax : max b (p.1 : Int) = b := max_eq_left hple
      obtain ⟨ih1, ih2, ih3⟩ := ih b c
      constructor
      · rw [List.foldl_cons, hstep, ih1, List.foldl_cons, hmax]
      constructor
      · intro hgt
        rw [List.foldl_cons, hmax] at hgt
        have hne : ((p.1 : Int) ==
            List.foldl (fun a p => max a (p.1 : Int)) b (p :: t)) = false := by
          rw [List.foldl_cons, hmax]
          simp only [beq_eq_false_iff_ne, ne_eq]
          exact ne_of_lt (lt_of_le_of_lt hple hgt)
        obtain ⟨q, hq1, hq2⟩ := ih2 hgt
        refine ⟨q, ?_, ?_⟩
        · rw [List.find?_cons, hne, List.foldl_cons, hmax]
          exact hq1
        · rw [List.foldl_cons, hstep]
          exact hq2
      · intro hle
        rw [List.foldl_cons, hmax] at hle
        rw [List.foldl_cons, hstep]
        exact ih3 hle

/-- The source matcher agrees with the spec's longest-selector /
first-on-tie matcher (shared bridge lemma). -/
theorem findColor_eq_spec (targetScopes : List Str)
    (rules : List ThemeTokenColorRule) :
    findColor targetScopes rules = findColorSpec targetScopes rules := by
  have key : ∀ ps : List (Nat × Str),
      (ps.foldl pairStep ((-1 : Int), (none : Option Str))).2 =
        match ps.find? (fun p => (p.1 : Int) == maxLenInt ps) with
        | some p => some p.2
        | none => none := by
    intro ps
    obtain ⟨h1, h2, h3⟩ := foldl_pairStep_char ps (-1) none
    rcases lt_or_eq_of_le (foldl_max_ge ps (-1)) with hgt | heq
    · obtain ⟨q, hq1, hq2⟩ := h2 hgt
      rw [hq2]
      have hml : maxLenInt ps = ps.foldl (fun a p => max a (p.1 : Int)) (-1) :=
        rfl
      rw [hml, hq1]
    · have hnil : ps = [] := by
        cases hps : ps with
        | nil => rfl
        | cons p t =>
          exfalso
          have h0 : (0 : Int) ≤ (p.1 : Int) := Int.ofNat_nonneg _
          have hge : max (-1 : Int) (p.1 : Int) ≤
              List.foldl (fun a p => max a (p.1 : Int))
                (max (-1) (p.1 : Int)) t :=
            foldl_max_ge t _
          rw [hps, List.foldl_cons] at heq
          have hlt : (-1 : Int) < max (-1 : Int) (p.1 : Int) :=
            lt_of_lt_of_le (by norm_num) (le_trans h0 (le_max_right _ _))
          linarith
      subst hnil
      rfl
  unfold findColor findColorSpec
  rw [foldl_stepRule]
  exact key (matchPairs targetScopes rules)

theorem any_perm {α : Type} {l1 l2 : List α} (h : l1.Perm l2)
    (p : α → Bool) : l1.any p = l2.any p := by
  by_cases hb : l2.any p = true
  · rw [hb, List.any_eq_true]
    obtain ⟨x, hx, hpx⟩ := List.any_eq_true.mp hb
    exact ⟨x, h.mem_iff.mpr hx, hpx⟩
  · have h1 : ¬ l1.any p = true := by
      rw [List.any_eq_true]
      rintro ⟨x, hx, hpx⟩
      exact hb (List.any_eq_true.mpr ⟨x, h.mem_iff.mp hx, hpx⟩)
    rw [Bool.not_eq_true] at h1 hb
    rw [h1, hb]

theorem anyTargetMatch_perm {ts ts' : List Str} (h : ts.Perm ts')
    (t : Str) : anyTargetMatch ts t = anyTargetMatch ts' t :=
  any_perm h _

theorem splitOnChar_ne_nil (c : Char) (s : Str) : splitOnChar c s ≠ [] := by
  cases s with
  | nil => simp [splitOnChar]
  | cons x xs =>
    rw [splitOnChar]
    split
    · simp
    · split <;> simp

theorem splitOnChar_not_mem {c : Char} {s : Str} (h : c ∉ s) :
    splitOnChar c s = [s] := by
  induction s with
  | nil => rfl
  | cons x xs ih =>
    have hx : ¬ x = c := fun he => h (he ▸ List.mem_cons_self x xs)
    rw [splitOnChar, if_neg hx, ih (fun hm => h (List.mem_cons_of_mem _ hm))]

theorem splitOnChar_append {c : Char} {s1 : Str} (s2 : Str) (h : c ∉ s1) :
    splitOnChar c (s1 ++ c :: s2) = s1 :: splitOnChar c s2 := by
  induction s1 with
  | nil => simp [splitOnChar]
  | cons x xs ih =>
    have hx : ¬ x = c := fun he => h (he ▸ List.mem_cons_self x xs)
    rw [List.cons_append, splitOnChar, if_neg hx,
      ih (fun hm => h (List.mem_cons_of_mem _ hm))]

theorem flatMap_filterMap_singleton {α β : Type} (f : α → Option β)
    (ls : List α) :
    ls.flatMap (fun s => List.filterMap f [s]) = ls.filterMap f := by
  induction ls with
  | nil => rfl
  | cons a t ih =>
    rw [List.flatMap_cons, ih]
    cases hfa : f a <;> simp [List.filterMap_cons, hfa]

/-- C4: `findColor` agrees with the spec's matcher everywhere — it
returns the foreground of a rule whose trimmed selector matches some
candidate and whose selector length is maximal among all matches, the
first such rule in list order winning ties (strictly greater length
replaces the current best, equal length does not); on the concrete
two-rule example of the spec the longer selector wins with `#222`; and
when no rule matches, no color is returned. -/
theorem C4_findColor_specificity :
    (∀ (targetScopes : List Str) (rules : List ThemeTokenColorRule),
      findColor targetScopes rules = findColorSpec targetScopes rules)
    ∧ findColor ["string.quoted.double".toList]
        [⟨some (Sum.inl "string".toList), some ⟨some "#111".toList⟩⟩,
         ⟨some (Sum.inl "string.quoted.double".toList),
           some ⟨some "#222".toList⟩⟩]
        = some "#222".toList
    ∧ (∀ (targetScopes : List Str) (rules : List ThemeTokenColorRule),
        matchPairs targetScopes rules = [] →
        findColor targetScopes rules = none) := by
  refine ⟨findColor_eq_spec, by decide, ?_⟩
  intro ts rs h
  rw [findColor_eq_spec]
  simp [findColorSpec, h]

theorem C4_findColor_specificity_witness :
    findColor ["string".toList] [] = none :=
  C4_findColor_specificity.2.2 ["string".toList] [] rfl

theorem scopePairs_inl_split (ts : List Str) (stg : Option RuleSettings)
    {s1 s2 : Str} (h1 : ',' ∉ s1) (h2 : ',' ∉ s2) :
    scopePairs ts ⟨some (Sum.inl (s1 ++ ',' :: s2)), stg⟩
      = scopePairs ts ⟨some (Sum.inl s1), stg⟩
        ++ scopePairs ts ⟨some (Sum.inl s2), stg⟩ := by
  cases hf : foregroundOf (⟨some (Sum.inl (s1 ++ ',' :: s2)), stg⟩ :
      ThemeTokenColorRule) with
  | none =>
    have hf1 : foregroundOf ⟨some (Sum.inl s1), stg⟩ = none := hf
    have hf2 : foregroundOf ⟨some (Sum.inl s2), stg⟩ = none := hf
    simp [scopePairs, hf, hf1, hf2]
  | some fg =>
    have hf1 : foregroundOf ⟨some (Sum.inl s1), stg⟩ = some fg := hf
    have hf2 : foregroundOf ⟨some (Sum.inl s2), stg⟩ = some fg := hf
    simp only [scopePairs, hf, hf1, hf2]
    have hrs : ruleScopes ⟨some (Sum.inl (s1 ++ ',' :: s2)), stg⟩
        = splitOnChar ',' (s1 ++ ',' :: s2) := rfl
    have hrs1 : ruleScopes ⟨some (Sum.inl s1), stg⟩ = splitOnChar ',' s1 :=
      rfl
    have hrs2 : ruleScopes ⟨some (Sum.inl s2), stg⟩ = splitOnChar ',' s2 :=
      rfl
    rw [hrs, hrs1, hrs2, splitOnChar_append s2 h1, splitOnChar_not_mem h1,
      splitOnChar_not_mem h2]
    simp [← List.filterMap_append]

theorem scopePairs_inr_flat (ts : List Str) (stg : Option RuleSettings)
    (ls : List Str) :
    (ls.map (fun s =>
        (⟨some (Sum.inr [s]), stg⟩ : ThemeTokenColorRule))).flatMap
        (scopePairs ts)
      = scopePairs ts ⟨some (Sum.inr ls), stg⟩ := by
  rw [List.flatMap_map]
  cases hf : foregroundOf (⟨some (Sum.inr ls), stg⟩ :
      ThemeTokenColorRule) with
  | none =>
    have hrw : ∀ sc : Option (Str ⊕ List Str),
        foregroundOf ⟨sc, stg⟩ = none := fun _ => hf
    simp [scopePairs, hrw]
  | some fg =>
    have hrw : ∀ sc : Option (Str ⊕ List Str),
        foregroundOf ⟨sc, stg⟩ = some fg := fun _ => hf
    simp only [scopePairs, hrw]
    have h1 : ∀ s : Str, ruleScopes ⟨some (Sum.inr [s]), stg⟩ = [s] :=
      fun _ => rfl
    have h2 : ruleScopes ⟨some (Sum.inr ls), stg⟩ = ls := rfl
    simp only [h1, h2]
    exact flatMap_filterMap_singleton _ ls

/-- C9: a string scope is split on commas into independent selectors
(each piece then trimmed inside `findColor`), so a rule whose scope is
the string `s1,s2` behaves exactly like the two rules with string
scopes `s1` and `s2` in its place; an array scope behaves like one
singleton rule per element, each element used as-is (then trimmed);
and the rule `'comment, string' ↦ #abc` gives `#abc` for the candidate
`string.quoted`. -/
theorem C9_findColor_comma_split :
    (∀ (ts : List Str) (pre post : List ThemeTokenColorRule)
      (stg : Option RuleSettings) (s1 s2 : Str),
      ¬ ',' ∈ s1 → ¬ ',' ∈ s2 →
      findColor ts
          (pre ++ ⟨some (Sum.inl (s1 ++ ',' :: s2)), stg⟩ :: post)
        = findColor ts (pre ++ ⟨some (Sum.inl s1), stg⟩ ::
            ⟨some (Sum.inl s2), stg⟩ :: post))
    ∧ (∀ (ts : List Str) (pre post : List ThemeTokenColorRule)
      (stg : Option RuleSettings) (ls : List Str),
      findColor ts (pre ++ ⟨some (Sum.inr ls), stg⟩ :: post)
        = findColor ts (pre ++ ls.map (fun s =>
            (⟨some (Sum.inr [s]), stg⟩ : ThemeTokenColorRule)) ++ post))
    ∧ findColor ["string.quoted".toList]
        [⟨some (Sum.inl "comment, string".toList),
          some ⟨some "#abc".toList⟩⟩]
        = some "#abc".toList := by
  refine ⟨?_, ?_, by decide⟩
  · intro ts pre post stg s1 s2 h1 h2
    rw [findColor_eq_spec, findColor_eq_spec]
    have hmp :
        matchPairs ts
            (pre ++ ⟨some (Sum.inl (s1 ++ ',' :: s2)), stg⟩ :: post)
          = matchPairs ts (pre ++ ⟨some (Sum.inl s1), stg⟩ ::
              ⟨some (Sum.inl s2), stg⟩ :: post) := by
      unfold matchPairs
      rw [List.flatMap_append, List.flatMap_append, List.flatMap_cons,
        List.flatMap_cons, List.flatMap_cons,
        scopePairs_inl_split ts stg h1 h2]
      simp [List.append_assoc]
    unfold findColorSpec
    rw [hmp]
  · intro ts pre post stg ls
    rw [findColor_eq_spec, findColor_eq_spec]
    have hmp : matchPairs ts (pre ++ ⟨some (Sum.inr ls), stg⟩ :: post)
        = matchPairs ts (pre ++ ls.map (fun s =>
            (⟨some (Sum.inr [s]), stg⟩ : ThemeTokenColorRule)) ++ post) := by
      unfold matchPairs
      rw [List.flatMap_append, List.flatMap_append, List.flatMap_append,
        List.flatMap_cons, scopePairs_inr_flat ts stg ls]
      simp [List.append_assoc]
    unfold findColorSpec
    rw [hmp]

theorem C9_findColor_comma_split_witness :
    findColor ["string.quoted".toList]
        [⟨some (Sum.inl ("comment".toList ++ ',' :: " string".toList)),
          some ⟨some "#abc".toList⟩⟩]
      = findColor ["string.quoted".toList]
        [⟨some (Sum.inl "comment".toList), some ⟨some "#abc".toList⟩⟩,
         ⟨some (Sum.inl " string".toList), some ⟨some "#abc".toList⟩⟩] :=
  C9_findColor_comma_split.1 ["string.quoted".toList] [] []
    (some ⟨some "#abc".toList⟩) "comment".toList " string".toList
    (by decide) (by decide)

/-- C10: the color `findColor` returns is invariant under any
permutation of the slot's candidate-scope list. -/
theorem C10_findColor_target_perm :
    ∀ (ts ts' : List Str) (rules : List ThemeTokenColorRule),
      ts.Perm ts' → findColor ts rules = findColor ts' rules := by
  intro ts ts' rules h
  rw [findColor_eq_spec, findColor_eq_spec]
  have hmp : matchPairs ts rules = matchPairs ts' rules := by
    unfold matchPairs
    congr 1
    funext r
    unfold scopePairs
    cases foregroundOf r with
    | none => rfl
    | some fg => simp only [anyTargetMatch_perm h]
  unfold findColorSpec
  rw [hmp]

theorem C10_findColor_target_perm_witness :
    findColor ["string.quoted".toList, "string".toList]
        [⟨some (Sum.inl "string".toList), some ⟨some "#111".toList⟩⟩]
      = findColor ["string".toList, "string.quoted".toList]
        [⟨some (Sum.inl "string".toList), some ⟨some "#111".toList⟩⟩] :=
  C10_findColor_target_perm _ _ _ (List.Perm.swap _ _ _)

/-! ## Resolver claims -/

/-- C1 (code bug in the source): `resolveTokenColors` tracks no visited
set, so on the concrete cyclic theme `A` — whose `include` resolves back
to `A` itself — the recursion exceeds every fuel bound, and the
unbounded recursion has no result at all: resolution hangs instead of
terminating with the rules gathered before the repeat. -/
theorem C1_resolveTokenColors_cycle_diverges :
    (∀ fuel, resolveTokenColors cycJoin cycEnv fuel "A".toList = none)
    ∧ ¬ ∃ rules, Resolves cycJoin cycEnv "A".toList rules := by
  have henv : cycEnv "A".toList = some cycDoc := by
    simp [cycEnv]
  constructor
  · intro fuel
    induction fuel with
    | zero => rfl
    | succ n ih =>
      rw [resolveTokenColors, henv]
      dsimp only
      have hinc : cycDoc.«include» = some "A".toList := rfl
      rw [hinc]
      dsimp only
      rw [if_neg (by decide)]
      have hjoin : cycJoin "A".toList "A".toList = "A".toList := rfl
      rw [hjoin, ih]
  · rintro ⟨rules, h⟩
    have key : ∀ uri rules, Resolves cycJoin cycEnv uri rules →
        uri ≠ "A".toList := by
      intro uri rules h
      induction h with
      | fail u he =>
        intro hu
        rw [hu, henv] at he
        cases he
      | noInclude u theme he hinc =>
        intro hu
        rw [hu, henv] at he
        cases he
        cases hinc
      | emptyInclude u theme he hinc =>
        intro hu
        rw [hu, henv] at he
        cases he
        cases hinc
      | follow u theme inc base he hinc hne hsub ih =>
        intro hu
        rw [hu, henv] at he
        cases he
        have hinc' : inc = "A".toList := by
          have hd : cycDoc.«include» = some "A".toList := rfl
          rw [hd] at hinc
          cases hinc
          rfl
        exact ih (by rw [hinc']; rfl)
    exact key _ _ h rfl

/-- Resolution results are stable under extra fuel. -/
theorem resolveTokenColors_mono (join : Str → Str → Str) (env : ThemeEnv) :
    ∀ (fuel : Nat) (uri : Str) (rules : List ThemeTokenColorRule),
      resolveTokenColors join env fuel uri = some rules →
      resolveTokenColors join env (fuel + 1) uri = some rules := by
  intro fuel
  induction fuel with
  | zero => intro uri rules h; cases h
  | succ n ih =>
    intro uri rules h
    rw [resolveTokenColors] at h
    rw [resolveTokenColors]
    cases henv : env uri with
    | none =>
      rw [henv] at h
      exact h
    | some theme =>
      rw [henv] at h
      dsimp only at h ⊢
      cases hinc : theme.«include» with
      | none =>
        rw [hinc] at h
        exact h
      | some inc =>
        rw [hinc] at h
        dsimp only at h ⊢
        by_cases he : inc = []
        · rw [if_pos he] at h
          rw [if_pos he]
          exact h
        · rw [if_neg he] at h
          rw [if_neg he]
          cases hb : resolveTokenColors join env n (join uri inc) with
          | none =>
            rw [hb] at h
            cases h
          | some base =>
            rw [hb] at h
            rw [ih _ _ hb]
            exact h

theorem resolveTokenColors_mono_le (join : Str → Str → Str)
    (env : ThemeEnv) {f1 f2 : Nat} {uri : Str}
    {rules : List ThemeTokenColorRule}
    (h : resolveTokenColors join env f1 uri = some rules)
    (hle : f1 ≤ f2) :
    resolveTokenColors join env f2 uri = some rules := by
  obtain ⟨k, rfl⟩ := Nat.exists_eq_add_of_le hle
  clear hle
  induction k with
  | zero => exact h
  | succ m ih =>
    have : f1 + (m + 1) = (f1 + m) + 1 := rfl
    rw [this]
    exact resolveTokenColors_mono join env _ _ _ ih

/-- C6: when a document has a (truthy) `include`, every successful
resolution result is exactly the parent's flattened rules followed by
the document's own rules, in their original order (base-first). -/
theorem C6_resolveTokenColors_base_first :
    ∀ (join : Str → Str → Str) (env : ThemeEnv) (fuel : Nat) (uri : Str)
      (theme : ThemeDoc) (inc : Str) (rules : List ThemeTokenColorRule),
      env uri = some theme → theme.«include» = some inc → inc ≠ [] →
      resolveTokenColors join env (fuel + 1) uri = some rules →
      ∃ base, resolveTokenColors join env fuel (join uri inc) = some base
        ∧ rules = base ++ ownRules theme := by
  intro join env fuel uri theme inc rules henv hinc hne hres
  rw [resolveTokenColors, henv] at hres
  dsimp only at hres
  rw [hinc] at hres
  dsimp only at hres
  rw [if_neg hne] at hres
  cases hb : resolveTokenColors join env fuel (join uri inc) with
  | none => rw [hb] at hres; cases hres
  | some base =>
    rw [hb] at hres
    cases hres
    exact ⟨base, rfl, rfl⟩

theorem C6_resolveTokenColors_base_first_witness :
    ∃ base, resolveTokenColors wJoin wEnv 1
        (wJoin "child".toList "base".toList) = some base
      ∧ [wRule2, wRule1] = base ++ ownRules ⟨some "base".toList, some [wRule1]⟩ :=
  C6_resolveTokenColors_base_first wJoin wEnv 1 "child".toList
    ⟨some "base".toList, some [wRule1]⟩ "base".toList [wRule2, wRule1]
    (by simp [wEnv]) rfl (by decide) (by decide)

/-- C7: if some document of the chain fails to read, resolution still
returns (`some`, never an exception), the failing document and
everything above it contribute nothing, and every successfully read
document below it contributes its own rules, base-first. -/
theorem C7_resolve_truncates_at_failure :
    ∀ (join : Str → Str → Str) (env : ThemeEnv) (uri : Str)
      (rss : List (List ThemeTokenColorRule)) (bad : Str) (fuel : Nat),
      IncludeChain join env uri rss bad → env bad = none →
      rss.length + 1 ≤ fuel →
      resolveTokenColors join env fuel uri = some rss.flatten := by
  intro join env uri rss bad fuel hchain hbad hfuel
  have key : resolveTokenColors join env (rss.length + 1) uri
      = some rss.flatten := by
    induction hchain with
    | refl u =>
      rw [resolveTokenColors, hbad]
      rfl
    | step u theme inc rss' bad' henv hinc hne _ ih =>
      have hlen : (rss' ++ [ownRules theme]).length + 1
          = (rss'.length + 1) + 1 := by simp
      have ih' := ih hbad (by
        simp only [List.length_append, List.length_cons,
          List.length_nil] at hfuel
        omega)
      rw [hlen, resolveTokenColors, henv]
      dsimp only
      rw [hinc]
      dsimp only
      rw [if_neg hne, ih']
      simp
  exact resolveTokenColors_mono_le join env key hfuel

theorem C7_resolve_truncates_at_failure_witness :
    resolveTokenColors wJoin wEnvMissing 2 "child".toList
      = some ([[wRule1]] : List (List ThemeTokenColorRule)).flatten :=
  C7_resolve_truncates_at_failure wJoin wEnvMissing "child".toList
    [[wRule1]] "missing".toList 2
    (by
      have h1 : IncludeChain wJoin wEnvMissing
          (wJoin "child".toList "missing".toList) [] "missing".toList :=
        IncludeChain.refl _
      have h2 := @IncludeChain.step wJoin wEnvMissing
        "child".toList ⟨some "missing".toList, some [wRule1]⟩
        "missing".toList [] "missing".toList (by simp [wEnvMissing]) rfl
        (by decide) h1
      simpa using h2)
    (by simp [wEnvMissing])
    (by decide)

/-- C5: `getThemeTokenColors` returns a total ten-field record by
construction, and whenever the rule list would be empty — no configured
theme name (or an empty one), a theme name no extension provides, or a
chain whose resolution produces zero rules (e.g. the root file fails to
read or parse) — the result is exactly the default palette selected by
the light/dark flag. -/
theorem C5_getThemeTokenColors_defaults :
    ∀ (isLight : Bool) (locate : Str → Option Str)
      (join : Str → Str → Str) (env : ThemeEnv) (fuel : Nat),
      (getThemeTokenColors isLight none locate join env fuel
         = some (if isLight then LIGHT_DEFAULTS else DARK_DEFAULTS))
      ∧ (∀ nm, locate nm = none →
          getThemeTokenColors isLight (some nm) locate join env fuel
            = some (if isLight then LIGHT_DEFAULTS else DARK_DEFAULTS))
      ∧ (∀ nm uri, locate nm = some uri →
          resolveTokenColors join env fuel uri = some [] →
          getThemeTokenColors isLight (some nm) locate join env fuel
            = some (if isLight then LIGHT_DEFAULTS else DARK_DEFAULTS)) := by
  intro isLight locate join env fuel
  refine ⟨rfl, ?_, ?_⟩
  · intro nm hloc
    unfold getThemeTokenColors
    dsimp only
    by_cases he : nm = []
    · rw [if_pos he]
    · rw [if_neg he, hloc]
  · intro nm uri hloc hres
    unfold getThemeTokenColors
    dsimp only
    by_cases he : nm = []
    · rw [if_pos he]
    · rw [if_neg he, hloc]
      dsimp only
      rw [hres]
      rfl

theorem C5_getThemeTokenColors_defaults_witness :
    getThemeTokenColors false (some "Theme".toList)
        (fun _ => some "u".toList) wJoin (fun _ => none) 1
      = some (if false then LIGHT_DEFAULTS else DARK_DEFAULTS) :=
  (C5_getThemeTokenColors_defaults false (fun _ => some "u".toList)
    wJoin (fun _ => none) 1).2.2 "Theme".toList "u".toList rfl rfl

/-! ## Losslessness of the JSON scan -/

theorem tokensText_append (a b : List Token) :
    tokensText (a ++ b) = tokensText a ++ tokensText b := by
  unfold tokensText
  rw [List.map_append, List.flatten_append]

theorem flushGap_text (gapRev : Str) (ts : List Token) :
    tokensText (flushGap gapRev ts) = gapRev.reverse ++ tokensText ts := by
  unfold flushGap
  split
  · rename_i h
    rw [h]
    rfl
  · simp [tokensText]

theorem span_append (p : Char → Bool) (l : Str) :
    (l.span p).1 ++ (l.span p).2 = l := by
  rw [List.span_eq_take_drop]
  exact List.takeWhile_append_dropWhile p l

theorem quotedUnits_append (l : Str) :
    (quotedUnits l).1 ++ (quotedUnits l).2 = l := by
  have H : ∀ (n : Nat) (l : Str), l.length ≤ n →
      (quotedUnits l).1 ++ (quotedUnits l).2 = l := by
    intro n
    induction n with
    | zero =>
      intro l hl
      cases l with
      | nil => rfl
      | cons c rest => simp at hl
    | succ n ih =>
      intro l hl
      cases l with
      | nil => rfl
      | cons c rest =>
        rw [quotedUnits.eq_def]
        dsimp only
        by_cases h1 : c = '"'
        · rw [if_pos (by simp [h1])]
          rfl
        · by_cases h2 : c = '\\'
          · rw [if_neg (by simp [h1, h2]), if_pos (by simp [h2])]
            cases rest with
            | nil => rfl
            | cons c2 rest2 =>
              cases hq : quotedUnits rest2 with
              | mk u r =>
                have ihr := ih rest2 (by
                  simp only [List.length_cons] at hl
                  omega)
                rw [hq] at ihr
                dsimp only at ihr
                dsimp only
                rw [hq]
                simp [ihr]
          · rw [if_neg (by simp [h1, h2]), if_neg (by simp [h2])]
            cases hq : quotedUnits rest with
            | mk u r =>
              have ihr := ih rest (by
                simp only [List.length_cons] at hl
                omega)
              rw [hq] at ihr
              dsimp only at ihr
              simp [ihr]
  exact H l.length l le_rfl

theorem matchQuoted_sound {l q r : Str} (h : matchQuoted l = some (q, r)) :
    q ++ r = l ∧ q ≠ [] := by
  cases l with
  | nil => cases h
  | cons c rest =>
    rw [matchQuoted] at h
    by_cases hc : c = '"'
    · rw [if_pos hc] at h
      cases hq : quotedUnits rest with
      | mk u r2 =>
        rw [hq] at h
        cases r2 with
        | nil => cases h
        | cons c2 r3 =>
          dsimp only at h
          by_cases hc2 : c2 = '"'
          · rw [if_pos hc2] at h
            cases h
            have hqa := quotedUnits_append rest
            rw [hq] at hqa
            dsimp only at hqa
            refine ⟨?_, by simp⟩
            simp only [List.cons_append, List.append_assoc,
              List.singleton_append]
            rw [← hqa]
            simp
          · rw [if_neg hc2] at h
            cases h
    · rw [if_neg hc] at h
      cases h

theorem optFrac_append (l : Str) : (optFrac l).1 ++ (optFrac l).2 = l := by
  cases l with
  | nil => rfl
  | cons c r =>
    rw [optFrac]
    by_cases hc : c = '.'
    · rw [if_pos hc]
      cases hs : r.span Char.isDigit with
      | mk fd r2 =>
        dsimp only
        by_cases hfd : fd = []
        · rw [if_pos hfd]
          rfl
        · rw [if_neg hfd]
          have hsp := span_append Char.isDigit r
          rw [hs] at hsp
          dsimp only at hsp
          dsimp only
          simp [hsp]
    · rw [if_neg hc]
      rfl

theorem optExp_append (l : Str) : (optExp l).1 ++ (optExp l).2 = l := by
  cases l with
  | nil => rfl
  | cons e r =>
    rw [optExp.eq_def]
    dsimp only
    by_cases he : (e = 'e' || e = 'E') = true
    · rw [if_pos he]
      cases r with
      | nil => rfl
      | cons s r2 =>
        dsimp only
        by_cases hs : (s = '+' || s = '-') = true
        · rw [if_pos hs]
          cases hsp : r2.span Char.isDigit with
          | mk ed r3 =>
            dsimp only
            by_cases hed : ed = []
            · rw [if_pos hed]
              rfl
            · rw [if_neg hed]
              have hspan := span_append Char.isDigit r2
              rw [hsp] at hspan
              dsimp only at hspan
              dsimp only
              simp [hspan]
        · rw [if_neg hs]
          cases hsp : (s :: r2).span Char.isDigit with
          | mk ed r3 =>
            dsimp only
            by_cases hed : ed = []
            · rw [if_pos hed]
              rfl
            · rw [if_neg hed]
              have hspan := span_append Char.isDigit (s :: r2)
              rw [hsp] at hspan
              dsimp only at hspan
              dsimp only
              simp [hspan]
    · rw [if_neg he]
      rfl

theorem matchNumber_sound {l n r : Str} (h : matchNumber l = some (n, r)) :
    n ++ r = l ∧ n ≠ [] := by
  cases l with
  | nil =>
    unfold matchNumber at h
    simp [List.span_eq_take_drop] at h
  | cons c r0 =>
    unfold matchNumber at h
    dsimp only at h
    by_cases hc : c = '-'
    · rw [if_pos hc] at h
      dsimp only at h
      cases hs : r0.span Char.isDigit with
      | mk ds l2 =>
        rw [hs] at h
        dsimp only at h
        by_cases hds : ds = []
        · rw [if_pos hds] at h
          cases h
        · rw [if_neg hds] at h
          cases hf : optFrac l2 with
          | mk frac l3 =>
            rw [hf] at h
            dsimp only at h
            cases he : optExp l3 with
            | mk ex l4 =>
              rw [he] at h
              dsimp only at h
              cases h
              have h1 := span_append Char.isDigit r0
              rw [hs] at h1
              dsimp only at h1
              have h2 := optFrac_append l2
              rw [hf] at h2
              dsimp only at h2
              have h3 := optExp_append l3
              rw [he] at h3
              dsimp only at h3
              refine ⟨?_, by simp⟩
              simp only [List.append_assoc, List.cons_append,
                List.nil_append, List.singleton_append]
              rw [h3, h2, h1]
    · rw [if_neg hc] at h
      dsimp only at h
      cases hs : (c :: r0).span Char.isDigit with
      | mk ds l2 =>
        rw [hs] at h
        dsimp only at h
        by_cases hds : ds = []
        · rw [if_pos hds] at h
          cases h
        · rw [if_neg hds] at h
          cases hf : optFrac l2 with
          | mk frac l3 =>
            rw [hf] at h
            dsimp only at h
            cases he : optExp l3 with
            | mk ex l4 =>
              rw [he] at h
              dsimp only at h
              cases h
              have h1 := span_append Char.isDigit (c :: r0)
              rw [hs] at h1
              dsimp only at h1
              have h2 := optFrac_append l2
              rw [hf] at h2
              dsimp only at h2
              have h3 := optExp_append l3
              rw [he] at h3
              dsimp only at h3
              refine ⟨?_, by simp [hds]⟩
              simp only [List.append_assoc, List.cons_append,
                List.nil_append, List.singleton_append]
              rw [h3, h2, h1]

theorem isPrefixOf_append_drop {kw l : Str} (h : kw.isPrefixOf l = true) :
    kw ++ l.drop kw.length = l := by
  obtain ⟨t, rfl⟩ := List.isPrefixOf_iff_prefix.mp h
  rw [List.drop_left]

theorem matchKeywordTok_sound {kw : Str} {prev : Option Char}
    {l k rest : Str} (hkw : kw ≠ [])
    (h : matchKeywordTok kw prev l = some (k, rest)) :
    k ++ rest = l ∧ k ≠ [] := by
  unfold matchKeywordTok at h
  dsimp only at h
  split at h
  · cases h
  · split at h
    · rename_i hpre
      split at h
      · rename_i c rest2 heq
        split at h
        · cases h
        · cases h
          refine ⟨?_, hkw⟩
          rw [← heq]
          exact isPrefixOf_append_drop hpre
      · rename_i heq
        cases h
        refine ⟨?_, hkw⟩
        have hd := isPrefixOf_append_drop hpre
        rw [heq] at hd
        simpa using hd
    · cases h

theorem matchKey_sound {l q pc rest : Str}
    (h : matchKey l = some (q, pc, rest)) :
    (q ++ pc) ++ rest = l ∧ q ≠ [] := by
  unfold matchKey at h
  cases hm : matchQuoted l with
  | none =>
    rw [hm] at h
    cases h
  | some pr =>
    obtain ⟨q0, r0⟩ := pr
    rw [hm] at h
    dsimp only at h
    obtain ⟨hq0, hne⟩ := matchQuoted_sound hm
    cases hs : r0.span isJsWs with
    | mk w r2 =>
      rw [hs] at h
      dsimp only at h
      cases r2 with
      | nil => cases h
      | cons c2 r3 =>
        dsimp only at h
        by_cases hc2 : c2 = ':'
        · rw [if_pos hc2] at h
          cases h
          have hsp := span_append isJsWs r0
          rw [hs] at hsp
          dsimp only at hsp
          refine ⟨?_, hne⟩
          rw [← hq0, ← hsp]
          simp
        · rw [if_neg hc2] at h
          cases h

theorem matchJsonAt_sound {prev : Option Char} {l : Str}
    {toks : List Token} {r : Str}
    (h : matchJsonAt prev l = some (toks, r)) :
    tokensText toks ++ r = l ∧ tokensText toks ≠ [] := by
  unfold matchJsonAt at h
  cases hk : matchKey l with
  | some pr =>
    obtain ⟨q, pc, rest⟩ := pr
    rw [hk] at h
    dsimp only at h
    cases h
    obtain ⟨ha, hne⟩ := matchKey_sound hk
    constructor
    · simpa [tokensText] using ha
    · simp [tokensText, hne]
  | none =>
    rw [hk] at h
    cases hq : matchQuoted l with
    | some pr =>
      obtain ⟨q, rest⟩ := pr
      rw [hq] at h
      dsimp only at h
      cases h
      obtain ⟨ha, hne⟩ := matchQuoted_sound hq
      exact ⟨by simpa [tokensText] using ha, by simp [tokensText, hne]⟩
    | none =>
      rw [hq] at h
      cases hn : matchNumber l with
      | some pr =>
        obtain ⟨nn, rest⟩ := pr
        rw [hn] at h
        dsimp only at h
        cases h
        obtain ⟨ha, hne⟩ := matchNumber_sound hn
        exact ⟨by simpa [tokensText] using ha, by simp [tokensText, hne]⟩
      | none =>
        rw [hn] at h
        cases ht : matchKeywordTok "true".toList prev l with
        | some pr =>
          obtain ⟨k, rest⟩ := pr
          rw [ht] at h
          dsimp only at h
          cases h
          obtain ⟨ha, hne⟩ := matchKeywordTok_sound (by decide) ht
          exact ⟨by simpa [tokensText] using ha, by simp [tokensText, hne]⟩
        | none =>
          rw [ht] at h
          cases hf : matchKeywordTok "false".toList prev l with
          | some pr =>
            obtain ⟨k, rest⟩ := pr
            rw [hf] at h
            dsimp only at h
            cases h
            obtain ⟨ha, hne⟩ := matchKeywordTok_sound (by decide) hf
            exact ⟨by simpa [tokensText] using ha, by simp [tokensText, hne]⟩
          | none =>
            rw [hf] at h
            cases hnu : matchKeywordTok "null".toList prev l with
            | some pr =>
              obtain ⟨k, rest⟩ := pr
              rw [hnu] at h
              dsimp only at h
              cases h
              obtain ⟨ha, hne⟩ := matchKeywordTok_sound (by decide) hnu
              exact ⟨by simpa [tokensText] using ha, by simp [tokensText, hne]⟩
            | none =>
              rw [hnu] at h
              cases l with
              | nil => cases h
              | cons c rest =>
                dsimp only at h
                split at h
                · cases h
                  exact ⟨by simp [tokensText], by simp [tokensText]⟩
                · cases h

theorem jsonScan_roundtrip :
    ∀ (fuel : Nat) (prev : Option Char) (gapRev l : Str),
      l.length < fuel →
      tokensText (jsonScan fuel prev gapRev l) = gapRev.reverse ++ l := by
  intro fuel
  induction fuel with
  | zero =>
    intro prev gapRev l h
    omega
  | succ n ih =>
    intro prev gapRev l hlen
    cases l with
    | nil =>
      rw [jsonScan, flushGap_text]
      simp [tokensText]
    | cons c rest =>
      rw [jsonScan]
      cases hm : matchJsonAt prev (c :: rest) with
      | none =>
        rw [ih (some c) (c :: gapRev) rest (by
          simp only [List.length_cons] at hlen
          omega)]
        simp
      | some pr =>
        obtain ⟨toks, r⟩ := pr
        dsimp only
        obtain ⟨hsound, hne⟩ := matchJsonAt_sound hm
        have hr : r.length < n := by
          have : tokensText toks ≠ [] := hne
          have hlen2 : (tokensText toks).length + r.length
              = rest.length + 1 := by
            have := congrArg List.length hsound
            simpa using this
          have hpos : 0 < (tokensText toks).length :=
            List.length_pos.mpr hne
          simp only [List.length_cons] at hlen
          omega
        rw [flushGap_text, tokensText_append, ih _ [] r hr]
        simp only [List.reverse_nil, List.nil_append]
        rw [hsound]

/-- C3: concatenating the `value` of every token the JSON tokenizer
emits, in emission order, reproduces the input exactly, for every
input. -/
theorem C3_tokenizeJson_roundtrip (s : Str) :
    tokensText (tokenizeJson s) = s := by
  unfold tokenizeJson
  rw [jsonScan_roundtrip (s.length + 1) none [] s (by omega)]
  rfl

/-! ## HTML tokenizer claims -/

/-- C8: on `<div class="x"><!-- c --></div>` the HTML tokenizer emits
exactly the tag markers `<`, `div`, `>`, an attribute-name token
`class`, an attribute-value token `"x"` (quotes included), the comment
token `<!-- c -->`, and the closing markers `</`, `div`, `>` — in that
order, interleaved only with the whitespace and `=` punctuation
tokens. -/
theorem C8_tokenizeHtml_classification :
    tokenizeHtml "<div class=\"x\"><!-- c --></div>".toList =
      [⟨"tag", "<".toList⟩, ⟨"tag", "div".toList⟩, ⟨"ws", " ".toList⟩,
       ⟨"attr-name", "class".toList⟩, ⟨"punct", "=".toList⟩,
       ⟨"attr-value", "\"x\"".toList⟩, ⟨"tag", ">".toList⟩,
       ⟨"comment", "<!-- c -->".toList⟩, ⟨"tag", "</".toList⟩,
       ⟨"tag", "div".toList⟩, ⟨"tag", ">".toList⟩] := by
  decide

/-- C2 (refuted as stated): the HTML tokenizer is NOT lossless on every
input — on the input `<` it emits no token at all, so the concatenation
of token values is empty. -/
theorem C2_tokenizeHtml_roundtrip_cex :
    ¬ tokensText (tokenizeHtml "<".toList) = "<".toList := by
  decide

theorem matchAttrValue_sound {l v r : Str}
    (h : matchAttrValue l = some (v, r)) : v ++ r = l ∧ v ≠ [] := by
  cases l with
  | nil => cases h
  | cons q rest =>
    rw [matchAttrValue] at h
    by_cases hq : (q = '"' || q = '\'') = true
    · rw [if_pos hq] at h
      cases hs : rest.span (fun c => !(c == '"' || c == '\'')) with
      | mk body r1 =>
        rw [hs] at h
        dsimp only at h
        cases r1 with
        | nil => cases h
        | cons q2 r2 =>
          dsimp only at h
          by_cases hq2 : (q2 = '"' || q2 = '\'') = true
          · rw [if_pos hq2] at h
            cases h
            have hsp := span_append (fun c => !(c == '"' || c == '\'')) rest
            rw [hs] at hsp
            dsimp only at hsp
            refine ⟨?_, by simp⟩
            simp only [List.cons_append, List.append_assoc,
              List.singleton_append]
            rw [← hsp]
            simp
          · rw [if_neg hq2] at h
            cases h
    · rw [if_neg hq] at h
      cases hs : (q :: rest).span isTagNameChar with
      | mk bare r1 =>
        rw [hs] at h
        dsimp only at h
        by_cases hb : bare = []
        · rw [if_pos hb] at h
          cases h
        · rw [if_neg hb] at h
          cases h
          have hsp := span_append isTagNameChar (q :: rest)
          rw [hs] at hsp
          dsimp only at hsp
          exact ⟨hsp, hb⟩

theorem matchAttrAt_sound {l : Str} {toks : List Token} {r : Str}
    (h : matchAttrAt l = some (toks, r)) :
    tokensText toks ++ r = l ∧ tokensText toks ≠ [] := by
  have fallback : ∀ (h : (let (w, rr) := l.span isJsWs
        if w = [] then none else some ([⟨"ws", w⟩], rr))
        = some (toks, r)),
      tokensText toks ++ r = l ∧ tokensText toks ≠ [] := by
    intro hf
    cases hw : l.span isJsWs with
    | mk w rr =>
      rw [hw] at hf
      have hws := span_append isJsWs l
      rw [hw] at hws
      dsimp only at hws
      cases w with
      | nil => cases hf
      | cons cw ww =>
        dsimp only at hf
        rw [if_neg (by simp)] at hf
        cases hf
        exact ⟨by simpa [tokensText] using hws, by simp [tokensText]⟩
  unfold matchAttrAt at h
  cases hn : l.span isAttrNameChar with
  | mk nm r1 =>
    rw [hn] at h
    have hnm := span_append isAttrNameChar l
    rw [hn] at hnm
    dsimp only at hnm
    dsimp only at h
    by_cases hnil : nm = []
    · rw [if_pos hnil] at h
      exact fallback h
    · rw [if_neg hnil] at h
      cases hw1 : r1.span isJsWs with
      | mk w1 r2 =>
        rw [hw1] at h
        have hws1 := span_append isJsWs r1
        rw [hw1] at hws1
        dsimp only at hws1
        dsimp only at h
        cases r2 with
        | nil =>
          dsimp only at h
          exact fallback h
        | cons ceq r3 =>
          dsimp only at h
          by_cases heq : ceq = '='
          · rw [if_pos heq] at h
            cases hw2 : r3.span isJsWs with
            | mk w2 r4 =>
              rw [hw2] at h
              have hws2 := span_append isJsWs r3
              rw [hw2] at hws2
              dsimp only at hws2
              dsimp only at h
              cases hv : matchAttrValue r4 with
              | none =>
                rw [hv] at h
                dsimp only at h
                exact fallback h
              | some pr =>
                obtain ⟨v, r5⟩ := pr
                rw [hv] at h
                dsimp only at h
                cases h
                obtain ⟨hva, hvne⟩ := matchAttrValue_sound hv
                constructor
                · simp only [tokensText, List.map_cons, List.map_nil,
                    List.flatten_cons, List.flatten_nil, List.append_nil,
                    List.append_assoc, List.cons_append]
                  rw [hva, hws2, hws1, hnm]
                · simp [tokensText, hnil]
          · rw [if_neg heq] at h
            dsimp only at h
            exact fallback h

theorem attrScan_roundtrip :
    ∀ (fuel : Nat) (gapRev l : Str),
      l.length < fuel →
      tokensText (attrScan fuel gapRev l) = gapRev.reverse ++ l := by
  intro fuel
  induction fuel with
  | zero =>
    intro gapRev l h
    omega
  | succ n ih =>
    intro gapRev l hlen
    cases l with
    | nil =>
      rw [attrScan, flushGap_text]
      simp [tokensText]
    | cons c rest =>
      rw [attrScan]
      cases hm : matchAttrAt (c :: rest) with
      | none =>
        rw [ih (c :: gapRev) rest (by
          simp only [List.length_cons] at hlen
          omega)]
        simp
      | some pr =>
        obtain ⟨toks, r⟩ := pr
        dsimp only
        obtain ⟨hsound, hne⟩ := matchAttrAt_sound hm
        have hr : r.length < n := by
          have hlen2 : (tokensText toks).length + r.length
              = rest.length + 1 := by
            have := congrArg List.length hsound
            simpa using this
          have hpos : 0 < (tokensText toks).length :=
            List.length_pos.mpr hne
          simp only [List.length_cons] at hlen
          omega
        rw [flushGap_text, tokensText_append, ih [] r hr]
        simp only [List.reverse_nil, List.nil_append]
        rw [hsound]

theorem attrTokens_text (s : Str) : tokensText (attrTokens s) = s := by
  unfold attrTokens
  rw [attrScan_roundtrip (s.length + 1) [] s (by omega)]
  rfl

/-! ## The tag decomposition covers the whole span -/

theorem span_exact {p : Char → Bool} {y : Char} (hy : p y = false) :
    ∀ (body rest : Str), (∀ x ∈ body, p x = true) →
      (body ++ y :: rest).span p = (body, y :: rest) := by
  intro body
  induction body with
  | nil =>
    intro rest hb
    rw [List.span_eq_take_drop, List.nil_append, List.takeWhile_cons,
      List.dropWhile_cons, hy]
    simp
  | cons b bs ih =>
    intro rest hb
    have hpb := hb b (List.mem_cons_self b bs)
    have hih := ih rest (fun x hx => hb x (List.mem_cons_of_mem _ hx))
    rw [List.span_eq_take_drop, Prod.mk.injEq] at hih
    rw [List.span_eq_take_drop, List.cons_append, List.takeWhile_cons,
      List.dropWhile_cons, hpb, Prod.mk.injEq]
    constructor
    · simp [hih.1]
    · simp [hih.2]

theorem span_all {p : Char → Bool} :
    ∀ (l : Str), (∀ x ∈ l, p x = true) → l.span p = (l, []) := by
  intro l
  induction l with
  | nil =>
    intro _
    rfl
  | cons b bs ih =>
    intro hl
    have hpb := hl b (List.mem_cons_self b bs)
    have hih := ih (fun x hx => hl x (List.mem_cons_of_mem _ hx))
    rw [List.span_eq_take_drop, Prod.mk.injEq] at hih
    rw [List.span_eq_take_drop, List.takeWhile_cons, List.dropWhile_cons,
      hpb, Prod.mk.injEq]
    constructor
    · simp [hih.1]
    · simp [hih.2]

theorem mem_of_append_singleton {pre tail z : Str} {x ch : Char}
    (he : pre ++ tail = z ++ [x]) (ht : tail ≠ []) (hc : ch ∈ pre) :
    ch ∈ z := by
  have hlen : pre.length + tail.length = z.length + 1 := by
    have := congrArg List.length he
    simpa using this
  have hle : pre.length ≤ z.length := by
    have : 0 < tail.length := List.length_pos.mpr ht
    omega
  have hpre : pre <+: z ++ [x] := ⟨tail, he⟩
  have heq : pre = (z ++ [x]).take pre.length :=
    List.prefix_iff_eq_take.mp hpre
  rw [List.take_append_of_le_length hle] at heq
  exact List.mem_of_mem_take (heq ▸ hc)

theorem tail_nil_of_gt {pre tail z : Str}
    (hsound : pre ++ tail = z ++ ['>']) (hmem : '>' ∈ pre)
    (hz : '>' ∉ z) : tail = [] := by
  by_contra ht
  exact hz (mem_of_append_singleton hsound ht hmem)

theorem matchCloseMark_sound {l cm r : Str}
    (h : matchCloseMark l = some (cm, r)) :
    cm ++ r = l ∧ '>' ∈ cm := by
  unfold matchCloseMark at h
  cases hw : l.span isJsWs with
  | mk w r1 =>
    rw [hw] at h
    have hws := span_append isJsWs l
    rw [hw] at hws
    dsimp only at hws
    dsimp only at h
    cases r1 with
    | nil => cases h
    | cons c r2 =>
      dsimp only at h
      by_cases hc : c = '>'
      · rw [if_pos hc] at h
        cases h
        constructor
        · simpa using hws
        · simp [hc]
      · rw [if_neg hc] at h
        by_cases hc2 : c = '/'
        · rw [if_pos hc2] at h
          cases r2 with
          | nil => cases h
          | cons c2 r3 =>
            dsimp only at h
            by_cases hc3 : c2 = '>'
            · rw [if_pos hc3] at h
              cases h
              constructor
              · simpa using hws
              · simp [hc3]
            · rw [if_neg hc3] at h
              cases h
        · rw [if_neg hc2] at h
          cases h

theorem findCloseMark_sound {l m cm r : Str}
    (h : findCloseMark l = some (m, cm, r)) :
    m ++ (cm ++ r) = l ∧ '>' ∈ cm := by
  induction l generalizing m with
  | nil => cases h
  | cons c rest ih =>
    rw [findCloseMark] at h
    cases hm : matchCloseMark (c :: rest) with
    | some pr =>
      obtain ⟨cm0, r0⟩ := pr
      rw [hm] at h
      dsimp only at h
      cases h
      obtain ⟨ha, hgt⟩ := matchCloseMark_sound hm
      exact ⟨by simpa using ha, hgt⟩
    | none =>
      rw [hm] at h
      cases hf : findCloseMark rest with
      | none =>
        rw [hf] at h
        cases h
      | some pr =>
        obtain ⟨m0, cm0, r0⟩ := pr
        rw [hf] at h
        dsimp only at h
        cases h
        obtain ⟨ha, hgt⟩ := ih hf
        constructor
        · rw [List.cons_append, ha]
        · exact hgt

theorem splitTagRest_sound {l m3 m4 tail : Str}
    (h : splitTagRest l = some (m3, m4, tail)) :
    m3 ++ (m4 ++ tail) = l ∧ '>' ∈ m4 := by
  unfold splitTagRest at h
  cases l with
  | nil => cases h
  | cons c rest =>
    dsimp only at h
    by_cases hc : isJsWs c = true
    · rw [if_pos hc] at h
      cases hw : (c :: rest).span isJsWs with
      | mk w r1 =>
        rw [hw] at h
        have hws := span_append isJsWs (c :: rest)
        rw [hw] at hws
        dsimp only at hws
        dsimp only at h
        cases hf : findCloseMark r1 with
        | none =>
          rw [hf] at h
          cases h
        | some pr =>
          obtain ⟨m0, cm0, r0⟩ := pr
          rw [hf] at h
          dsimp only at h
          cases h
          obtain ⟨ha, hgt⟩ := findCloseMark_sound hf
          constructor
          · rw [List.append_assoc, ha, hws]
          · exact hgt
    · rw [if_neg hc] at h
      cases hm : matchCloseMark (c :: rest) with
      | none =>
        rw [hm] at h
        cases h
      | some pr =>
        obtain ⟨cm0, r0⟩ := pr
        rw [hm] at h
        dsimp only at h
        cases h
        obtain ⟨ha, hgt⟩ := matchCloseMark_sound hm
        exact ⟨by simpa using ha, hgt⟩

theorem tagSlash_append (rest : Str) :
    (tagSlash rest).1 ++ (tagSlash rest).2 = rest := by
  cases rest with
  | nil => rfl
  | cons s r =>
    rw [tagSlash]
    by_cases hs : s = '/'
    · rw [if_pos hs]
      rfl
    · rw [if_neg hs]
      rfl

theorem decomposeTagAt_sound {l m1 m2 m3 m4 tail : Str}
    (h : decomposeTagAt l = some (m1, m2, m3, m4, tail)) :
    (m1 ++ (m2 ++ (m3 ++ m4))) ++ tail = l ∧ '>' ∈ m4 := by
  unfold decomposeTagAt at h
  cases l with
  | nil => cases h
  | cons lt rest =>
    dsimp only at h
    by_cases hlt : lt = '<'
    · rw [if_pos hlt] at h
      cases hsl : tagSlash rest with
      | mk slash r1 =>
        rw [hsl] at h
        have hsr := tagSlash_append rest
        rw [hsl] at hsr
        dsimp only at hsr
        dsimp only at h
        cases hn : r1.span isTagNameChar with
        | mk nm r2 =>
          rw [hn] at h
          have hnm := span_append isTagNameChar r1
          rw [hn] at hnm
          dsimp only at hnm
          dsimp only at h
          by_cases hnil : nm = []
          · rw [if_pos hnil] at h
            cases h
          · rw [if_neg hnil] at h
            cases hs : splitTagRest r2 with
            | none =>
              rw [hs] at h
              cases h
            | some pr =>
              obtain ⟨m3a, m4a, taila⟩ := pr
              rw [hs] at h
              dsimp only at h
              cases h
              obtain ⟨ha, hgt⟩ := splitTagRest_sound hs
              constructor
              · simp only [List.cons_append, List.append_assoc,
                  List.nil_append]
                rw [ha, hnm, hsr]
              · exact hgt
    · rw [if_neg hlt] at h
      cases h

theorem decomposeTagAt_none_of_ne {c : Char} {rest : Str} (hc : ¬ c = '<') :
    decomposeTagAt (c :: rest) = none := by
  unfold decomposeTagAt
  dsimp only
  rw [if_neg hc]

theorem findTagMatch_none {l : Str} (h : '<' ∉ l) : findTagMatch l = none := by
  induction l with
  | nil => rfl
  | cons c rest ih =>
    rw [findTagMatch,
      decomposeTagAt_none_of_ne
        (fun he => h (he ▸ List.mem_cons_self c rest))]
    exact ih (fun hm => h (List.mem_cons_of_mem _ hm))

/-- Token emission for a clean tag span (no stray `<` or `>` inside)
concatenates back to the whole span: the decomposition regex, when it
matches, matches at position 0 and its trailing group ends at the final
`>`; when it fails, the whole span is one token. -/
theorem tagTokens_text_of_clean {slash : Str} {c : Char} {body : Str}
    (hslash : slash = [] ∨ slash = ['/']) (hα : c.isAlpha = true)
    (hlt : '<' ∉ body) (hgt : '>' ∉ body) :
    tokensText (tagTokens ('<' :: (slash ++ c :: (body ++ ['>']))))
      = '<' :: (slash ++ c :: (body ++ ['>'])) := by
  have hshape : '<' :: (slash ++ c :: (body ++ ['>']))
      = ('<' :: (slash ++ c :: body)) ++ ['>'] := by
    simp
  have hzmem : '>' ∉ ('<' :: (slash ++ c :: body)) := by
    intro hmem
    rcases hslash with rfl | rfl
    · simp only [List.nil_append, List.mem_cons, List.mem_append] at hmem
      rcases hmem with h1 | h1 | h1
      · exact absurd h1 (by decide)
      · exact absurd hα (by rw [← h1]; decide)
      · exact hgt h1
    · simp only [List.mem_cons, List.mem_append,
        List.singleton_append] at hmem
      rcases hmem with h1 | h1 | h1 | h1
      · exact absurd h1 (by decide)
      · exact absurd h1 (by decide)
      · exact absurd hα (by rw [← h1]; decide)
      · exact hgt h1
  unfold tagTokens
  cases hd : decomposeTagAt ('<' :: (slash ++ c :: (body ++ ['>']))) with
  | some x =>
    obtain ⟨m1, m2, m3, m4, tail⟩ := x
    have hft : findTagMatch ('<' :: (slash ++ c :: (body ++ ['>'])))
        = some (m1, m2, m3, m4, tail) := by
      rw [findTagMatch, hd]
    rw [hft]
    dsimp only
    obtain ⟨ha, hgt4⟩ := decomposeTagAt_sound hd
    rw [hshape] at ha
    have htail : tail = [] :=
      tail_nil_of_gt ha (by simp [hgt4]) hzmem
    subst htail
    rw [List.append_nil] at ha
    rw [tokensText_append, tokensText_append]
    have hattr := attrTokens_text m3
    simp only [tokensText, List.map_cons, List.map_nil, List.flatten_cons,
      List.flatten_nil, List.append_nil] at hattr ⊢
    rw [hattr, hshape, ← ha]
    simp
  | none =>
    have hft : findTagMatch ('<' :: (slash ++ c :: (body ++ ['>'])))
        = none := by
      rw [findTagMatch, hd]
      dsimp only
      apply findTagMatch_none
      intro hmem
      rcases hslash with rfl | rfl
      · simp only [List.nil_append, List.mem_cons, List.mem_append] at hmem
        rcases hmem with h1 | h1 | h1
        · exact absurd hα (by rw [← h1]; decide)
        · exact hlt h1
        · exact absurd h1 (by decide)
      · simp only [List.mem_cons, List.mem_append,
          List.singleton_append] at hmem
        rcases hmem with h1 | h1 | h1 | h1
        · exact absurd h1 (by decide)
        · exact absurd hα (by rw [← h1]; decide)
        · exact hlt h1
        · exact absurd h1 (by decide)
    rw [hft]
    simp [tokensText]

/-! ## The scan consumes well-formed chunks exactly -/

theorem isPrefixOf_append_of_le {p x : Str} (y : Str)
    (h : p.length ≤ x.length) :
    p.isPrefixOf (x ++ y) = p.isPrefixOf x := by
  cases hb : p.isPrefixOf x with
  | true =>
    rw [List.isPrefixOf_iff_prefix] at hb ⊢
    exact hb.trans (List.prefix_append x y)
  | false =>
    cases hb2 : p.isPrefixOf (x ++ y) with
    | false => rfl
    | true =>
      exfalso
      rw [List.isPrefixOf_iff_prefix] at hb2
      have heq : p = (x ++ y).take p.length := List.prefix_iff_eq_take.mp hb2
      rw [List.take_append_of_le_length h] at heq
      have hpx : p <+: x := heq ▸ List.take_prefix p.length x
      rw [← List.isPrefixOf_iff_prefix] at hpx
      rw [hpx] at hb
      cases hb

theorem noEarlyTerm_head {b : Char} {body : Str}
    (h : noEarlyTerm (b :: body) = true) :
    ['-', '-', '>'].isPrefixOf ((b :: body) ++ ['-', '-', '>']) = false := by
  unfold noEarlyTerm at h
  rw [List.all_eq_true] at h
  have h0 := h 0 (by rw [List.mem_range]; simp)
  simpa using h0

theorem noEarlyTerm_tail {b : Char} {body : Str}
    (h : noEarlyTerm (b :: body) = true) : noEarlyTerm body = true := by
  unfold noEarlyTerm at h ⊢
  rw [List.all_eq_true] at h ⊢
  intro i hi
  rw [List.mem_range] at hi
  have hi1 := h (i + 1) (by
    rw [List.mem_range]
    simp only [List.length_cons]
    omega)
  simpa [List.cons_append, List.drop_succ_cons] using hi1

theorem commentBody_exact : ∀ (body rest : Str), noEarlyTerm body = true →
    commentBody ((body ++ ['-', '-', '>']) ++ rest)
      = some (body ++ ['-', '-', '>'], rest) := by
  intro body
  induction body with
  | nil =>
    intro rest _
    rw [List.nil_append]
    rw [show (['-', '-', '>'] : Str) ++ rest = '-' :: '-' :: '>' :: rest
      from rfl]
    rw [commentBody.eq_def]
    dsimp only
    rw [if_pos (by
      rw [List.isPrefixOf_iff_prefix]
      exact ⟨rest, rfl⟩)]
    rfl
  | cons b bs ih =>
    intro rest hne
    have hpf : ['-', '-', '>'].isPrefixOf
        (b :: (bs ++ '-' :: '-' :: '>' :: rest)) = false := by
      have h0 := noEarlyTerm_head hne
      have hl := isPrefixOf_append_of_le (p := ['-', '-', '>'])
        (x := (b :: bs) ++ ['-', '-', '>']) rest (by simp)
      rw [h0] at hl
      simpa [List.cons_append, List.append_assoc] using hl
    have hih : commentBody (bs ++ '-' :: '-' :: '>' :: rest)
        = some (bs ++ ['-', '-', '>'], rest) := by
      have hi := ih rest (noEarlyTerm_tail hne)
      simpa [List.cons_append, List.append_assoc] using hi
    have hgoal : ((b :: bs) ++ ['-', '-', '>']) ++ rest
        = b :: (bs ++ '-' :: '-' :: '>' :: rest) := by
      simp
    rw [hgoal, commentBody.eq_def]
    dsimp only
    rw [hpf]
    rw [if_neg (by simp)]
    rw [hih]
    rfl

theorem matchComment_chunk {body : Str} (rest : Str)
    (hne : noEarlyTerm body = true) :
    matchComment ("<!--".toList ++ ((body ++ ['-', '-', '>']) ++ rest))
      = some ("<!--".toList ++ (body ++ ['-', '-', '>']), rest) := by
  unfold matchComment
  rw [if_pos (by
    rw [List.isPrefixOf_iff_prefix]
    exact ⟨(body ++ ['-', '-', '>']) ++ rest, rfl⟩)]
  have hdrop : ("<!--".toList ++ ((body ++ ['-', '-', '>']) ++ rest)).drop 4
      = (body ++ ['-', '-', '>']) ++ rest := by
    rw [show (4 : Nat) = ("<!--".toList).length from rfl, List.drop_left]
  rw [hdrop, commentBody_exact body rest hne]

theorem ciEqList_cons {p : Char} {ps l : Str}
    (h : ciEqList (p :: ps) l = true) :
    ∃ c cs, l = c :: cs ∧ (p.toLower == c.toLower) = true
      ∧ ciEqList ps cs = true := by
  cases l with
  | nil => cases h
  | cons c cs =>
    rw [ciEqList, Bool.and_eq_true] at h
    exact ⟨c, cs, rfl, h.1, h.2⟩

theorem ciEqList_length : ∀ {p l : Str}, ciEqList p l = true →
    l.length = p.length := by
  intro p
  induction p with
  | nil =>
    intro l h
    cases l with
    | nil => rfl
    | cons c cs => cases h
  | cons a as ih =>
    intro l h
    cases l with
    | nil => cases h
    | cons b bs =>
      rw [ciEqList, Bool.and_eq_true] at h
      simp [ih h.2]

theorem toLower_eq_of_not_lower {c x : Char}
    (hx : ¬ (97 ≤ x.toNat ∧ x.toNat ≤ 122)) (h : c.toLower = x) :
    c = x := by
  unfold Char.toLower at h
  dsimp only at h
  split at h
  · rename_i hrange
    exfalso
    apply hx
    rw [← h]
    have hv : (c.toNat + 32).isValidChar := by
      left
      omega
    have hn : (Char.ofNat (c.toNat + 32)).toNat = c.toNat + 32 := by
      rw [Char.ofNat, dif_pos hv]
      rfl
    rw [hn]
    omega
  · exact h

theorem matchComment_none_of_head {l : Str}
    (h : "<!--".toList.isPrefixOf l = false) : matchComment l = none := by
  unfold matchComment
  rw [h]
  rw [if_neg (by simp)]

/-- The doctype pattern forces the third character to satisfy
`toLower = 'd'`, which rules the comment pattern out. -/
theorem doctype_comment_fails {d9 tail : Str}
    (h : ciEqList "<!DOCTYPE".toList d9 = true) :
    "<!--".toList.isPrefixOf (d9 ++ tail) = false := by
  obtain ⟨c0, cs0, rfl, h0, h⟩ := ciEqList_cons h
  obtain ⟨c1, cs1, rfl, h1, h⟩ := ciEqList_cons h
  obtain ⟨c2, cs2, rfl, h2, h⟩ := ciEqList_cons h
  have hne : ('-' == c2) = false := by
    rw [beq_eq_false_iff_ne]
    intro he
    rw [← he] at h2
    exact absurd h2 (by decide)
  simp [List.isPrefixOf, hne]

theorem matchDoctype_chunk {d9 body : Str} (rest : Str)
    (hci : ciEqList "<!DOCTYPE".toList d9 = true) (hgt : '>' ∉ body) :
    matchDoctype (d9 ++ (body ++ '>' :: rest))
      = some (d9 ++ (body ++ ['>']), rest) := by
  have hlen : d9.length = 9 := ciEqList_length hci
  have htake : (d9 ++ (body ++ '>' :: rest)).take 9 = d9 := by
    rw [← hlen, List.take_left]
  have hdrop : (d9 ++ (body ++ '>' :: rest)).drop 9 = body ++ '>' :: rest := by
    rw [← hlen, List.drop_left]
  unfold matchDoctype
  dsimp only
  rw [show ("<!DOCTYPE".toList).length = 9 from rfl]
  rw [htake, if_pos hci, hdrop]
  rw [span_exact (p := fun c => !(c == '>')) (y := '>') (by decide) body rest
    (fun x hx => by
      simp only [Bool.not_eq_true']
      rw [beq_eq_false_iff_ne]
      intro he
      exact hgt (he ▸ hx))]
  dsimp only
  rw [if_pos rfl]

theorem matchDoctype_none_of_second {x1 : Char} {tail : Str}
    (h : ('!'.toLower == x1.toLower) = false) :
    matchDoctype ('<' :: x1 :: tail) = none := by
  have hc : ciEqList "<!DOCTYPE".toList
      (('<' :: x1 :: tail).take ("<!DOCTYPE".toList).length) = false := by
    rw [show ('<' :: x1 :: tail).take ("<!DOCTYPE".toList).length
        = '<' :: x1 :: tail.take 7 from rfl]
    rw [show "<!DOCTYPE".toList = '<' :: '!' :: "DOCTYPE".toList from rfl]
    rw [ciEqList, ciEqList, h]
    simp
  unfold matchDoctype
  dsimp only
  rw [hc]
  rw [if_neg (by simp)]

theorem matchDoctype_none_of_first {x0 : Char} {tail : Str}
    (h : ('<'.toLower == x0.toLower) = false) :
    matchDoctype (x0 :: tail) = none := by
  have hc : ciEqList "<!DOCTYPE".toList
      ((x0 :: tail).take ("<!DOCTYPE".toList).length) = false := by
    rw [show (x0 :: tail).take ("<!DOCTYPE".toList).length
        = x0 :: tail.take 8 from rfl]
    rw [show "<!DOCTYPE".toList = '<' :: "!DOCTYPE".toList from rfl]
    rw [ciEqList, h]
    simp
  unfold matchDoctype
  dsimp only
  rw [hc]
  rw [if_neg (by simp)]

theorem matchTagSpan_chunk {slash : Str} {c : Char} {body : Str} (rest : Str)
    (hslash : slash = [] ∨ slash = ['/']) (hα : c.isAlpha = true)
    (hgt : '>' ∉ body) :
    matchTagSpan ('<' :: (slash ++ c :: (body ++ '>' :: rest)))
      = some ('<' :: (slash ++ c :: (body ++ ['>'])), rest) := by
  unfold matchTagSpan
  dsimp only
  rw [if_pos rfl]
  have hts : tagSlash (slash ++ c :: (body ++ '>' :: rest))
      = (slash, c :: (body ++ '>' :: rest)) := by
    rcases hslash with rfl | rfl
    · rw [List.nil_append, tagSlash]
      rw [if_neg (fun he => by
        rw [he] at hα
        exact absurd hα (by decide))]
    · rw [show (['/'] : Str) ++ (c :: (body ++ '>' :: rest))
          = '/' :: (c :: (body ++ '>' :: rest)) from rfl]
      rw [tagSlash, if_pos rfl]
  rw [hts]
  dsimp only
  rw [if_pos hα]
  rw [span_exact (p := fun x => !(x == '>')) (y := '>') (by decide) body rest
    (fun x hx => by
      simp only [Bool.not_eq_true']
      rw [beq_eq_false_iff_ne]
      intro he
      exact hgt (he ▸ hx))]
  dsimp only
  rw [if_pos rfl]

theorem matchTagSpan_none_of_ne {c : Char} {rest : Str} (hc : ¬ c = '<') :
    matchTagSpan (c :: rest) = none := by
  unfold matchTagSpan
  dsimp only
  rw [if_neg hc]

theorem matchText_chunk {t rest : Str} (hne : t ≠ []) (hlt : '<' ∉ t)
    (hrest : rest = [] ∨ ∃ r, rest = '<' :: r) :
    matchText (t ++ rest) = some (t, rest) := by
  unfold matchText
  have hall : ∀ x ∈ t, (fun ch => !(ch == '<')) x = true := fun x hx => by
    simp only [Bool.not_eq_true']
    rw [beq_eq_false_iff_ne]
    intro he
    exact hlt (he ▸ hx)
  have hsp : (t ++ rest).span (fun ch => !(ch == '<')) = (t, rest) := by
    rcases hrest with rfl | ⟨r, rfl⟩
    · rw [List.append_nil]
      exact span_all t hall
    · exact span_exact (p := fun ch => !(ch == '<')) (y := '<')
        (by decide) t r hall
  rw [hsp]
  dsimp only
  rw [if_neg hne]

theorem prefix4_false_of_head {t0 : Char} {ts : Str} (h : ¬ '<' = t0) :
    "<!--".toList.isPrefixOf (t0 :: ts) = false := by
  rw [show "<!--".toList = '<' :: "!--".toList from rfl]
  rw [List.isPrefixOf]
  rw [show ('<' == t0) = false from beq_eq_false_iff_ne.mpr h]
  simp

theorem prefix4_false_of_second {x : Char} {ts : Str}
    (h : ('!' == x) = false) :
    "<!--".toList.isPrefixOf ('<' :: x :: ts) = false := by
  rw [show "<!--".toList = '<' :: '!' :: "--".toList from rfl]
  rw [List.isPrefixOf, List.isPrefixOf, h]
  simp

theorem alpha_toLower_ne_bang {c : Char} (hα : c.isAlpha = true) :
    ('!'.toLower == c.toLower) = false := by
  rw [show '!'.toLower = '!' from by decide]
  rw [beq_eq_false_iff_ne]
  intro h
  have hc := toLower_eq_of_not_lower (x := '!') (by decide) h.symm
  rw [hc] at hα
  exact absurd hα (by decide)

theorem ne_lt_toLower {c : Char} (hc : ¬ c = '<') :
    ('<'.toLower == c.toLower) = false := by
  rw [show '<'.toLower = '<' from by decide]
  rw [beq_eq_false_iff_ne]
  intro h
  exact hc (toLower_eq_of_not_lower (x := '<') (by decide) h.symm)

theorem htmlScan_step {n : Nat} {l : Str} {toks : List Token} {r : Str}
    (hne : l ≠ []) (hm : matchHtmlAt l = some (toks, r)) :
    htmlScan (n + 1) l = toks ++ htmlScan n r := by
  cases l with
  | nil => exact absurd rfl hne
  | cons c cs => rw [htmlScan, hm]

theorem htmlScan_chunks :
    ∀ (fuel : Nat) (l : Str), HtmlChunks l → l.length < fuel →
      tokensText (htmlScan fuel l) = l := by
  intro fuel
  induction fuel with
  | zero =>
    intro l _ h
    omega
  | succ n ih =>
    intro l hch hlen
    cases hch with
    | nil =>
      rw [htmlScan]
      rfl
    | comment body rest hne2 hch2 =>
      rw [show ("-->".toList : Str) = ['-', '-', '>'] from rfl]
      have hshape : "<!--".toList ++ body ++ ['-', '-', '>'] ++ rest
          = "<!--".toList ++ ((body ++ ['-', '-', '>']) ++ rest) := by
        simp
      rw [hshape]
      have hc := @matchComment_chunk body rest hne2
      have hm : matchHtmlAt ("<!--".toList ++ ((body ++ ['-', '-', '>']) ++ rest))
          = some ([⟨"comment", "<!--".toList ++ (body ++ ['-', '-', '>'])⟩],
              rest) := by
        unfold matchHtmlAt
        rw [hc]
      have hnonnil : "<!--".toList ++ ((body ++ ['-', '-', '>']) ++ rest)
          ≠ [] := by
        intro h
        have h2 := congrArg List.length h
        simp only [List.length_append, List.length_nil] at h2
        rw [show ("<!--".toList : Str).length = 4 from rfl] at h2
        omega
      rw [htmlScan_step hnonnil hm, tokensText_append]
      have hrl : rest.length < n := by
        simp only [List.length_append] at hlen
        rw [show ("<!--".toList : Str).length = 4 from rfl,
            show ("-->".toList : Str).length = 3 from rfl] at hlen
        omega
      rw [ih rest hch2 hrl]
      simp [tokensText, List.append_assoc]
    | doctype d9 body rest hci hgt hch2 =>
      have hshape : d9 ++ body ++ '>' :: rest
          = d9 ++ (body ++ '>' :: rest) := by
        simp
      rw [hshape]
      have hd := @matchDoctype_chunk d9 body rest hci hgt
      have hcf : matchComment (d9 ++ (body ++ '>' :: rest)) = none :=
        matchComment_none_of_head (doctype_comment_fails hci)
      have hm : matchHtmlAt (d9 ++ (body ++ '>' :: rest))
          = some ([⟨"doctype", d9 ++ (body ++ ['>'])⟩], rest) := by
        unfold matchHtmlAt
        rw [hcf]
        dsimp only
        rw [hd]
      have hnonnil : d9 ++ (body ++ '>' :: rest) ≠ [] := by
        intro h
        have h2 := congrArg List.length h
        simp only [List.length_append, List.length_cons, List.length_nil] at h2
        omega
      rw [htmlScan_step hnonnil hm, tokensText_append]
      have hrl : rest.length < n := by
        simp only [List.length_append, List.length_cons] at hlen
        omega
      rw [ih rest hch2 hrl]
      simp [tokensText, List.append_assoc]
    | tag slash c body rest hslash hα hltb hgtb hch2 =>
      have hshape : '<' :: slash ++ c :: body ++ '>' :: rest
          = '<' :: (slash ++ c :: (body ++ '>' :: rest)) := by
        simp
      rw [hshape]
      have hbang : ('!' == c) = false := by
        rw [beq_eq_false_iff_ne]
        intro he
        rw [← he] at hα
        exact absurd hα (by decide)
      rcases hslash with rfl | rfl
      · have ht := @matchTagSpan_chunk [] c body rest (Or.inl rfl) hα hgtb
        simp only [List.nil_append] at ht
        simp only [List.nil_append]
        have hcf := matchComment_none_of_head
          (@prefix4_false_of_second c (body ++ '>' :: rest) hbang)
        have hdf := @matchDoctype_none_of_second c
          (body ++ '>' :: rest) (alpha_toLower_ne_bang hα)
        have hm : matchHtmlAt ('<' :: c :: (body ++ '>' :: rest))
            = some (tagTokens ('<' :: c :: (body ++ ['>'])), rest) := by
          unfold matchHtmlAt
          rw [hcf]
          dsimp only
          rw [hdf]
          dsimp only
          rw [ht]
        rw [htmlScan_step (by simp) hm, tokensText_append]
        have hrl : rest.length < n := by
          simp only [List.length_cons, List.length_append] at hlen
          omega
        rw [ih rest hch2 hrl]
        have htt := @tagTokens_text_of_clean [] c body
          (Or.inl rfl) hα hltb hgtb
        simp only [List.nil_append] at htt
        rw [htt]
        simp
      · have ht := @matchTagSpan_chunk ['/'] c body rest (Or.inr rfl) hα hgtb
        simp only [List.cons_append, List.nil_append] at ht
        simp only [List.cons_append, List.nil_append]
        have hcf := matchComment_none_of_head
          (@prefix4_false_of_second '/'
            (c :: (body ++ '>' :: rest)) (by decide))
        have hdf := @matchDoctype_none_of_second '/'
          (c :: (body ++ '>' :: rest)) (by decide)
        have hm : matchHtmlAt ('<' :: '/' :: c :: (body ++ '>' :: rest))
            = some (tagTokens ('<' :: '/' :: c :: (body ++ ['>'])), rest) := by
          unfold matchHtmlAt
          rw [hcf]
          dsimp only
          rw [hdf]
          dsimp only
          rw [ht]
        rw [htmlScan_step (by simp) hm, tokensText_append]
        have hrl : rest.length < n := by
          simp only [List.length_cons, List.length_append] at hlen
          omega
        rw [ih rest hch2 hrl]
        have htt := @tagTokens_text_of_clean ['/'] c body
          (Or.inr rfl) hα hltb hgtb
        simp only [List.cons_append, List.nil_append] at htt
        rw [htt]
        simp
    | text t rest hne2 hlt2 hrest2 hch2 =>
      cases t with
      | nil => exact absurd rfl hne2
      | cons t0 ts =>
        have ht0 : ¬ t0 = '<' := by
          intro he
          refine hlt2 ?_
          rw [he]
          exact List.mem_cons_self _ _
        have hmt := matchText_chunk (t := t0 :: ts) hne2 hlt2 hrest2
        simp only [List.cons_append] at hmt
        have hm : matchHtmlAt (t0 :: (ts ++ rest))
            = some ([⟨"ws", t0 :: ts⟩], rest) := by
          unfold matchHtmlAt
          rw [matchComment_none_of_head
            (prefix4_false_of_head (fun he => ht0 he.symm))]
          dsimp only
          rw [matchDoctype_none_of_first (ne_lt_toLower ht0)]
          dsimp only
          rw [matchTagSpan_none_of_ne ht0]
          dsimp only
          rw [hmt]
        rw [List.cons_append]
        rw [htmlScan_step (by simp) hm, tokensText_append]
        have hrl : rest.length < n := by
          simp only [List.length_append, List.length_cons] at hlen
          omega
        rw [ih rest hch2 hrl]
        simp [tokensText]

/-- C2 (amended): the HTML round-trip holds exactly on inputs that are
concatenations of well-formed chunks: comment spans `<!--body-->` whose
body contains no earlier `-->`, doctype spans (a case-insensitive
`<!DOCTYPE` head, a `>`-free body, then `>`), tag spans (`<` or `</`,
an ASCII-alphabetic first name character, a body free of `<` and `>`,
then `>`), and nonempty `<`-free text runs each followed by `<` or by
the end of the input.  On every such input, concatenating the `value`
of every token `tokenizeHtml` emits, in emission order, reproduces the
input exactly.  (The stray-`<` counterexample above is not such a
concatenation: the scanner has no gap logic, so unmatched characters
are dropped.) -/
theorem C2_tokenizeHtml_roundtrip_on_chunks (s : Str) (h : HtmlChunks s) :
    tokensText (tokenizeHtml s) = s := by
  unfold tokenizeHtml
  exact htmlScan_chunks (s.length + 1) s h (by omega)

theorem C2_tokenizeHtml_roundtrip_on_chunks_witness :
    HtmlChunks "<!--x--><!DOCTYPE html><div>hi".toList ∧
    tokensText (tokenizeHtml "<!--x--><!DOCTYPE html><div>hi".toList)
      = "<!--x--><!DOCTYPE html><div>hi".toList := by
  have h4 : HtmlChunks ([] : Str) := HtmlChunks.nil
  have h3 : HtmlChunks "hi".toList := by
    have h := HtmlChunks.text "hi".toList []
      (by decide) (by decide) (Or.inl rfl) h4
    have he : "hi".toList ++ ([] : Str) = "hi".toList := by decide
    exact he ▸ h
  have h2 : HtmlChunks "<div>hi".toList := by
    have h := HtmlChunks.tag [] 'd' "iv".toList "hi".toList
      (Or.inl rfl) (by decide) (by decide) (by decide) h3
    have he : '<' :: ([] : Str) ++ 'd' :: "iv".toList ++ '>' :: "hi".toList
        = "<div>hi".toList := by decide
    exact he ▸ h
  have h1 : HtmlChunks "<!DOCTYPE html><div>hi".toList := by
    have h := HtmlChunks.doctype "<!DOCTYPE".toList " html".toList
      "<div>hi".toList (by decide) (by decide) h2
    have he : "<!DOCTYPE".toList ++ " html".toList ++ '>' :: "<div>hi".toList
        = "<!DOCTYPE html><div>hi".toList := by decide
    exact he ▸ h
  have h0 : HtmlChunks "<!--x--><!DOCTYPE html><div>hi".toList := by
    have h := HtmlChunks.comment "x".toList "<!DOCTYPE html><div>hi".toList
      (by decide) h1
    have he : "<!--".toList ++ "x".toList ++ "-->".toList
        ++ "<!DOCTYPE html><div>hi".toList
        = "<!--x--><!DOCTYPE html><div>hi".toList := by decide
    exact he ▸ h
  exact ⟨h0, C2_tokenizeHtml_roundtrip_on_chunks _ h0⟩
